import Mathlib

/-!
# Verification of the meval.ai core (sources + evaluators packages)

Shallow embedding of the Go sources in `pkg/sources/json_source.go`,
`pkg/sources/factory.go`, `pkg/evaluators/gemini.go` and the config
declarations in `pkg/config`, together with proofs of the testable
properties stated in the specification.

Dynamic Go values (`interface{}` holding JSON-decoded data or
test-constructed data) are modelled by the mutual inductive `JVal`.
Go `float64`/`float32` payloads are modelled as scaled decimals
`m / 10^e`: this mirrors exactly the decimal texts the `encoding/json`
codec reads and writes for the values reachable in this program
(Go re-encodes a decoded number as its shortest decimal form, so decimal
texts are in bijection with the reachable float values; exponent-form
literals are outside the model). Go maps (`Record = map[string]interface{}`)
are modelled as association lists; Go-reachable records have unique keys,
and `encoding/json` renders map keys in sorted order, which the renderer
takes as the entry order of the list.
-/

set_option maxRecDepth 10000

namespace Meval

mutual
/-- Dynamic Go value as it occurs in a `Record` (`map[string]interface{}`):
the JSON-decodable constructors plus the extra Go numeric types accepted by
`validateFieldType` (`float32`, `int`, `int32`, `int64`), which arise only in
hand-constructed records, never from JSON decoding. -/
inductive JVal : Type where
  | vstr (s : String)
  | vnum (m : Int) (e : Nat)
  | vfloat32 (m : Int) (e : Nat)
  | vint (n : Int)
  | vint32 (n : Int)
  | vint64 (n : Int)
  | vbool (b : Bool)
  | vnull
  | varr (xs : JArr)
  | vobj (fs : JObj)
  deriving DecidableEq

/-- A Go `[]interface{}` value. -/
inductive JArr : Type where
  | nil
  | cons (hd : JVal) (tl : JArr)
  deriving DecidableEq

/-- A Go `map[string]interface{}` value, as an association list in the
canonical (sorted-key) order used by `encoding/json`. -/
inductive JObj : Type where
  | nil
  | cons (k : String) (v : JVal) (tl : JObj)
  deriving DecidableEq
end

/-- A data record: `type Record map[string]interface{}` (source.go). -/
abbrev Record := JObj

/-- Go map indexing `record[name]`. -/
def JObj.lookup : JObj → String → Option JVal
  | .nil, _ => none
  | .cons k v tl, key => if k = key then some v else tl.lookup key

/-- `FieldConfig` from pkg/config: a schema field's name and type. -/
structure FieldConfig where
  name : String
  type : String
  deriving DecidableEq

/-- `SchemaConfig` from pkg/config: the ordered field list. -/
structure SchemaConfig where
  fields : List FieldConfig
  deriving DecidableEq

/-- The Go runtime type name of a value, as `%T` prints it (used in the
validator's error messages). -/
def goTypeName : JVal → String
  | .vstr _ => "string"
  | .vnum _ _ => "float64"
  | .vfloat32 _ _ => "float32"
  | .vint _ => "int"
  | .vint32 _ => "int32"
  | .vint64 _ => "int64"
  | .vbool _ => "bool"
  | .vnull => "<nil>"
  | .varr _ => "[]interface \x7b\x7d"
  | .vobj _ => "map[string]interface \x7b\x7d"

/-- `validateFieldType` (json_source.go:264-293): switch on the declared
type string, type-asserting the dynamic value; no coercion. -/
def validateFieldType (value : JVal) (expectedType : String) : Except String Unit :=
  if expectedType = "string" then
    match value with
    | .vstr _ => .ok ()
    | _ => .error ("expected string, got " ++ goTypeName value)
  else if expectedType = "number" then
    match value with
    | .vnum _ _ | .vfloat32 _ _ | .vint _ | .vint32 _ | .vint64 _ => .ok ()
    | _ => .error ("expected number, got " ++ goTypeName value)
  else if expectedType = "boolean" then
    match value with
    | .vbool _ => .ok ()
    | _ => .error ("expected boolean, got " ++ goTypeName value)
  else if expectedType = "array" then
    match value with
    | .varr _ => .ok ()
    | _ => .error ("expected array, got " ++ goTypeName value)
  else if expectedType = "object" then
    match value with
    | .vobj _ => .ok ()
    | _ => .error ("expected object, got " ++ goTypeName value)
  else
    .error ("unsupported type: " ++ expectedType)

/-- The loop body of `validateRecord` (json_source.go:249-261), recursing
over the schema's field list in declared order. -/
def validateFields (record : Record) : List FieldConfig → Except String Unit
  | [] => .ok ()
  | field :: rest =>
    match record.lookup field.name with
    | none => .error ("missing required field: " ++ field.name)
    | some value =>
      match validateFieldType value field.type with
      | .error e => .error ("field " ++ field.name ++ ": " ++ e)
      | .ok _ => validateFields record rest

/-- `JSONSource.validateRecord` (json_source.go:249-261). -/
def validateRecord (schema : SchemaConfig) (record : Record) : Except String Unit :=
  validateFields record schema.fields

/-- Spec-side acceptance rule (spec §3, "Field kind → acceptance rule"):
which value kinds a declared field kind accepts. Stated independently of the
code so that the validator can be compared against it. -/
def matchesKind (v : JVal) (kind : String) : Bool :=
  if kind = "string" then (match v with | .vstr _ => true | _ => false)
  else if kind = "number" then
    (match v with
     | .vnum _ _ | .vfloat32 _ _ | .vint _ | .vint32 _ | .vint64 _ => true
     | _ => false)
  else if kind = "boolean" then (match v with | .vbool _ => true | _ => false)
  else if kind = "array" then (match v with | .varr _ => true | _ => false)
  else if kind = "object" then (match v with | .vobj _ => true | _ => false)
  else false

/-! ## JSON source construction (`NewJSONSource`, json_source.go:25-45) -/

/-- Go map lookup on the `map[string]interface{}` configuration block. -/
def cfgLookup : List (String × JVal) → String → Option JVal
  | [], _ => none
  | (k, v) :: tl, key => if k = key then some v else cfgLookup tl key

/-- The pure fields of a `JSONSource` (the writer handle is modelled
separately as a `WriteState`). -/
structure JSONSource where
  path : String
  mode : String
  schema : SchemaConfig
  deriving DecidableEq

/-- `NewJSONSource` (json_source.go:25-45): the `path` type assertion, the
defaulting of an empty mode to `"array"`, and the mode whitelist. A failed
type assertion on `mode` yields Go's zero value `""`. -/
def NewJSONSource (cfg : List (String × JVal)) (schema : SchemaConfig) :
    Except String JSONSource :=
  match cfgLookup cfg "path" with
  | some (JVal.vstr path) =>
    let mode0 : String :=
      match cfgLookup cfg "mode" with
      | some (JVal.vstr m) => m
      | _ => ""
    let mode := if mode0 = "" then "array" else mode0
    if mode ≠ "array" ∧ mode ≠ "lines" then
      Except.error ("unsupported mode: " ++ mode ++ " (must be 'array' or 'lines')")
    else
      Except.ok ⟨path, mode, schema⟩
  | _ => Except.error "path is required for JSON source"

/-- The mode a configuration resolves to (empty/absent/non-string defaults
to `"array"`), used to state the construction characterization. -/
def resolvedMode (cfg : List (String × JVal)) : String :=
  let mode0 : String :=
    match cfgLookup cfg "mode" with
    | some (JVal.vstr m) => m
    | _ => ""
  if mode0 = "" then "array" else mode0

/-! ## Prompt templating (`applyPromptTemplate`, gemini.go:98-109) -/

/-- Non-overlapping left-to-right replacement of every occurrence of `pat`
by `repl`, over character lists, with structural fuel (one unit per
consumed character, so `s.length` units always suffice): the semantics of
Go's `strings.ReplaceAll` for a non-empty pattern (placeholders are never
empty, so the empty-pattern insertion behavior of Go is unreachable and
modelled as the identity). -/
def replaceAllFuel (pat repl : List Char) : Nat → List Char → List Char
  | 0, s => s
  | _ + 1, [] => []
  | fuel + 1, c :: tl =>
    if pat ≠ [] ∧ pat.isPrefixOf (c :: tl) then
      repl ++ replaceAllFuel pat repl fuel (List.drop (pat.length - 1) tl)
    else
      c :: replaceAllFuel pat repl fuel tl

/-- Replacement of every occurrence of `pat` by `repl` in `s`. -/
def replaceAllList (pat repl s : List Char) : List Char :=
  replaceAllFuel pat repl s.length s

/-- `strings.ReplaceAll` on strings. -/
def strReplaceAll (s pat repl : String) : String :=
  ⟨replaceAllList pat.data repl.data s.data⟩

/-- The character of a decimal digit. -/
def digitChar (d : Nat) : Char := Char.ofNat (48 + d)

/-- Decimal digits of a natural number, most significant first
(fuel-structural; `n + 1` units always suffice). -/
def natDigitsAux : Nat → Nat → List Char → List Char
  | 0, _, acc => acc
  | fuel + 1, n, acc =>
    if n < 10 then digitChar n :: acc
    else natDigitsAux fuel (n / 10) (digitChar (n % 10) :: acc)

/-- Decimal digit string of a natural number. -/
def natDigits (n : Nat) : List Char := natDigitsAux (n + 1) n []

/-- Decimal digit string of an integer (with a leading minus sign). -/
def intDigits (i : Int) : List Char :=
  if i < 0 then '-' :: natDigits i.natAbs else natDigits i.natAbs

/-- Decimal rendering of the scaled decimal `m / 10^e`: exactly the text
Go emits for the modelled `float64` (and for `%v` of such a value). -/
def renderDec (m : Int) (e : Nat) : String :=
  if e = 0 then ⟨intDigits m⟩
  else
    let a := m.natAbs
    let fracDigits := natDigits (a % 10 ^ e)
    let pad := List.replicate (e - fracDigits.length) '0'
    ⟨(if m < 0 then ['-'] else []) ++
      natDigits (a / 10 ^ e) ++ '.' :: (pad ++ fracDigits)⟩

mutual
/-- `fmt.Sprintf("%v", value)` on a dynamic value: strings raw, booleans
`true`/`false`, numbers in decimal, slices `[a b]`, maps `map[k:v]` with
entries in the list's (canonical sorted) order, `nil` as `<nil>`. -/
def formatValue : JVal → String
  | .vstr s => s
  | .vnum m e => renderDec m e
  | .vfloat32 m e => renderDec m e
  | .vint n => toString n
  | .vint32 n => toString n
  | .vint64 n => toString n
  | .vbool b => cond b "true" "false"
  | .vnull => "<nil>"
  | .varr xs => "[" ++ formatArr xs ++ "]"
  | .vobj fs => "map[" ++ formatObj fs ++ "]"

/-- Space-separated `%v` of slice elements. -/
def formatArr : JArr → String
  | .nil => ""
  | .cons v .nil => formatValue v
  | .cons v tl => formatValue v ++ " " ++ formatArr tl

/-- Space-separated `k:v` of map entries. -/
def formatObj : JObj → String
  | .nil => ""
  | .cons k v .nil => k ++ ":" ++ formatValue v
  | .cons k v tl => k ++ ":" ++ formatValue v ++ " " ++ formatObj tl
end

/-- The placeholder text `fmt.Sprintf("{{%s}}", key)`. -/
def placeholder (key : String) : String := "\x7b\x7b" ++ key ++ "\x7d\x7d"

/-- The loop of `applyPromptTemplate` (gemini.go:102-106): one
`strings.ReplaceAll` per record entry, in iteration order. -/
def applyPromptTemplateGo : Record → String → String
  | .nil, p => p
  | .cons k v tl, p =>
    applyPromptTemplateGo tl (strReplaceAll p (placeholder k) (formatValue v))

/-- `GeminiEvaluator.applyPromptTemplate` (gemini.go:98-109). -/
def applyPromptTemplate (prompt : String) (record : Record) : String :=
  applyPromptTemplateGo record prompt

/-- Entries of a record as a list of pairs. -/
def JObj.toList : JObj → List (String × JVal)
  | .nil => []
  | .cons k v tl => (k, v) :: tl.toList

/-! ## JSON text: the `encoding/json` codec as used by this program

The writer uses `json.NewEncoder(w)` with `SetIndent("", "  ")`, so a
record is emitted as indented multi-line JSON followed by a newline; the
readers use `json.Decoder.Decode` / `json.Unmarshal`. Both are modelled
over character lists. -/

/-- `'{'` (kept out of literals). -/
def lbrace : Char := Char.ofNat 123

/-- `'}'` (kept out of literals). -/
def rbrace : Char := Char.ofNat 125

/-- Lowercase hex digit. -/
def hexDigit (n : Nat) : Char :=
  if n < 10 then digitChar n else Char.ofNat (87 + n)

/-- Escaping of one character in a JSON string, exactly as Go's
`encoding/json` does with its default HTML escaping (`"` and `\`
backslash-escaped, `\n`/`\r`/`\t` shorthands, other control characters as
`\u00XX`, plus `<`, `>`, `&`, U+2028 and U+2029 escaped). -/
def escapeChar (c : Char) : List Char :=
  if c = '"' then ['\\', '"']
  else if c = '\\' then ['\\', '\\']
  else if c = '\n' then ['\\', 'n']
  else if c = '\r' then ['\\', 'r']
  else if c = '\t' then ['\\', 't']
  else if c.toNat < 32 then
    ['\\', 'u', '0', '0', hexDigit (c.toNat / 16), hexDigit (c.toNat % 16)]
  else if c = '<' then ['\\', 'u', '0', '0', '3', 'c']
  else if c = '>' then ['\\', 'u', '0', '0', '3', 'e']
  else if c = '&' then ['\\', 'u', '0', '0', '2', '6']
  else if c.toNat = 8232 then ['\\', 'u', '2', '0', '2', '8']
  else if c.toNat = 8233 then ['\\', 'u', '2', '0', '2', '9']
  else [c]

/-- Escape every character of a string body. -/
def escapeList : List Char → List Char
  | [] => []
  | c :: tl => escapeChar c ++ escapeList tl

/-- A JSON string literal. -/
def renderString (s : String) : List Char :=
  '"' :: (escapeList s.data ++ ['"'])

/-- Indentation produced by `SetIndent("", "  ")` at a nesting depth. -/
def indentStr (depth : Nat) : List Char := List.replicate (2 * depth) ' '

mutual
/-- Indented JSON rendering of a value at a nesting depth: the output of
Go's `json.Indent`-style encoding (empty composites stay on one line,
non-empty ones put each element on its own line). -/
def renderVal (depth : Nat) : JVal → List Char
  | .vstr s => renderString s
  | .vnum m e => (renderDec m e).data
  | .vfloat32 m e => (renderDec m e).data
  | .vint n => intDigits n
  | .vint32 n => intDigits n
  | .vint64 n => intDigits n
  | .vbool b => (cond b "true" "false").data
  | .vnull => ['n', 'u', 'l', 'l']
  | .varr .nil => ['[', ']']
  | .varr (JArr.cons hd tl) =>
    '[' :: '\n' :: (renderArrItems depth (JArr.cons hd tl) ++
      '\n' :: (indentStr depth ++ [']']))
  | .vobj .nil => [lbrace, rbrace]
  | .vobj (JObj.cons k v tl) =>
    lbrace :: '\n' :: (renderObjItems depth (JObj.cons k v tl) ++
      '\n' :: (indentStr depth ++ [rbrace]))

/-- The comma-and-newline separated element lines of a non-empty array. -/
def renderArrItems (depth : Nat) : JArr → List Char
  | .nil => []
  | .cons v .nil => indentStr (depth + 1) ++ renderVal (depth + 1) v
  | .cons v (JArr.cons h2 t2) =>
    indentStr (depth + 1) ++ renderVal (depth + 1) v ++
      ',' :: '\n' :: renderArrItems depth (JArr.cons h2 t2)

/-- The comma-and-newline separated `"key": value` lines of a non-empty
object. -/
def renderObjItems (depth : Nat) : JObj → List Char
  | .nil => []
  | .cons k v .nil =>
    indentStr (depth + 1) ++ renderString k ++ ':' :: ' ' :: renderVal (depth + 1) v
  | .cons k v (JObj.cons k2 v2 t2) =>
    indentStr (depth + 1) ++ renderString k ++ ':' :: ' ' :: renderVal (depth + 1) v ++
      ',' :: '\n' :: renderObjItems depth (JObj.cons k2 v2 t2)
end

/-- The text that follows a non-empty array's first rendered element, up
to and including the closing bracket, with `rest` appended
(right-associated normal form of the renderer's output, used to relate
renderer and parser). -/
def arrTailText (d : Nat) : JArr → List Char → List Char
  | .nil, rest => '\n' :: (indentStr d ++ (']' :: rest))
  | .cons h2 t2, rest =>
    ',' :: ('\n' :: (indentStr (d + 1) ++ (renderVal (d + 1) h2 ++ arrTailText d t2 rest)))

/-- The text that follows a non-empty object's first rendered key, colon
and value, up to and including the closing brace, with `rest` appended. -/
def objTailText (d : Nat) : JObj → List Char → List Char
  | .nil, rest => '\n' :: (indentStr d ++ (rbrace :: rest))
  | .cons k2 v2 t2, rest =>
    ',' :: ('\n' :: (indentStr (d + 1) ++ (renderString k2 ++
      (':' :: (' ' :: (renderVal (d + 1) v2 ++ objTailText d t2 rest))))))

/-- JSON whitespace skipping. -/
def skipWs : List Char → List Char
  | [] => []
  | c :: tl => if c = ' ' ∨ c = '\n' ∨ c = '\t' ∨ c = '\r' then skipWs tl else c :: tl

/-- Is `c` a decimal digit? -/
def isDigitChar (c : Char) : Bool := 48 ≤ c.toNat ∧ c.toNat ≤ 57

/-- Head of a character list, if any. -/
def headChar : List Char → Option Char
  | [] => none
  | c :: _ => some c

/-- JSON whitespace characters (the condition of `skipWs`). -/
def isWsChar (c : Char) : Bool := c = ' ' ∨ c = '\n' ∨ c = '\t' ∨ c = '\r'

/-- The input does not continue a number literal (empty, or the head is
neither a digit nor `'.'`). -/
def numBoundary : List Char → Bool
  | [] => true
  | c :: _ => !(isDigitChar c || c = '.')

/-- The input does not start with a digit. -/
def digitBoundary : List Char → Bool
  | [] => true
  | c :: _ => !isDigitChar c

/-- The value of a digit string under left-to-right accumulation. -/
def valFrom : Nat → List Char → Nat
  | a, [] => a
  | a, c :: tl => valFrom (a * 10 + (c.toNat - 48)) tl

/-- Consume a maximal run of decimal digits, returning the accumulated
value, the count of digits consumed, and the remaining input. -/
def parseDigits : Nat → Nat → List Char → Nat × Nat × List Char
  | acc, cnt, [] => (acc, cnt, [])
  | acc, cnt, c :: tl =>
    if isDigitChar c then parseDigits (acc * 10 + (c.toNat - 48)) (cnt + 1) tl
    else (acc, cnt, c :: tl)

/-- Does the input start with a decimal digit? -/
def headDigit (s : List Char) : Bool :=
  match headChar s with
  | some c => isDigitChar c
  | none => false

/-- Parse an unsigned JSON number literal (integer or fixed-point
decimal) into a scaled decimal. -/
def parseUnsignedNumber (s1 : List Char) : Option ((Nat × Nat) × List Char) :=
  if headDigit s1 then
    match parseDigits 0 0 s1 with
    | (ip, _, s2) =>
      if headChar s2 = some '.' then
        if headDigit s2.tail then
          match parseDigits 0 0 s2.tail with
          | (fp, e, s3) => some ((ip * 10 ^ e + fp, e), s3)
        else none
      else some ((ip, 0), s2)
  else none

/-- Parse a JSON number literal (exponent forms are outside the model,
the renderer never emits them) into a scaled decimal. -/
def parseNumber (s : List Char) : Option ((Int × Nat) × List Char) :=
  if headChar s = some '-' then
    (parseUnsignedNumber s.tail).map fun ((a, e), rest) => ((-(a : Int), e), rest)
  else
    (parseUnsignedNumber s).map fun ((a, e), rest) => (((a : Int), e), rest)

/-- Hex digit value. -/
def hexVal (c : Char) : Option Nat :=
  if 48 ≤ c.toNat ∧ c.toNat ≤ 57 then some (c.toNat - 48)
  else if 97 ≤ c.toNat ∧ c.toNat ≤ 102 then some (c.toNat - 87)
  else if 65 ≤ c.toNat ∧ c.toNat ≤ 70 then some (c.toNat - 55)
  else none

/-- The character a single-character escape stands for. -/
def unescapeChar (c : Char) : Option Char :=
  if c = '"' then some '"'
  else if c = '\\' then some '\\'
  else if c = '/' then some '/'
  else if c = 'n' then some '\n'
  else if c = 'r' then some '\r'
  else if c = 't' then some '\t'
  else if c = 'b' then some (Char.ofNat 8)
  else if c = 'f' then some (Char.ofNat 12)
  else none

/-- Parse the body of a JSON string literal (after the opening quote) up
to and including the closing quote. -/
def parseStringBody : List Char → Option (List Char × List Char)
  | [] => none
  | '"' :: tl => some ([], tl)
  | '\\' :: e :: tl =>
    if e = 'u' then
      match tl with
      | a :: b :: c :: d :: tl2 =>
        (match hexVal a, hexVal b, hexVal c, hexVal d with
         | some ha, some hb, some hc, some hd' =>
           (parseStringBody tl2).map fun p =>
             (Char.ofNat (((ha * 16 + hb) * 16 + hc) * 16 + hd') :: p.1, p.2)
         | _, _, _, _ => none)
      | _ => none
    else
      match unescapeChar e with
      | some c => (parseStringBody tl).map fun p => (c :: p.1, p.2)
      | none => none
  | c :: tl => (parseStringBody tl).map fun p => (c :: p.1, p.2)

mutual
/-- Parse one JSON value (fuel bounds the nesting depth; one unit is
spent per composite level, so `input.length + 1` always suffices). -/
def parseVal : Nat → List Char → Option (JVal × List Char)
  | 0, _ => none
  | fuel + 1, s =>
    match skipWs s with
    | '"' :: tl => (parseStringBody tl).map fun (cs, rest) => (.vstr ⟨cs⟩, rest)
    | 'n' :: 'u' :: 'l' :: 'l' :: tl => some (.vnull, tl)
    | 't' :: 'r' :: 'u' :: 'e' :: tl => some (.vbool true, tl)
    | 'f' :: 'a' :: 'l' :: 's' :: 'e' :: tl => some (.vbool false, tl)
    | '[' :: tl =>
      if headChar (skipWs tl) = some ']' then some (.varr .nil, (skipWs tl).tail)
      else (parseArrItems fuel (skipWs tl)).map fun (xs, rest) => (.varr xs, rest)
    | c :: tl =>
      if c = lbrace then
        if headChar (skipWs tl) = some rbrace then some (.vobj .nil, (skipWs tl).tail)
        else (parseObjItems fuel (skipWs tl)).map fun (fs, rest) => (.vobj fs, rest)
      else if c = '-' ∨ isDigitChar c then
        (parseNumber (c :: tl)).map fun ((m, e), rest) => (.vnum m e, rest)
      else none
    | [] => none

/-- Parse the non-empty comma-separated element list of an array, up to
and including the closing bracket. -/
def parseArrItems : Nat → List Char → Option (JArr × List Char)
  | 0, _ => none
  | fuel + 1, s =>
    match parseVal fuel s with
    | some (v, rest) =>
      (match skipWs rest with
       | ',' :: r2 => (parseArrItems fuel r2).map fun (tl, r3) => (.cons v tl, r3)
       | ']' :: r2 => some (.cons v .nil, r2)
       | _ => none)
    | none => none

/-- Parse the non-empty comma-separated member list of an object, up to
and including the closing brace. -/
def parseObjItems : Nat → List Char → Option (JObj × List Char)
  | 0, _ => none
  | fuel + 1, s =>
    match skipWs s with
    | '"' :: tl =>
      (match parseStringBody tl with
       | some (ks, rest) =>
         (match skipWs rest with
          | ':' :: r2 =>
            (match parseVal fuel r2 with
             | some (v, r3) =>
               (match skipWs r3 with
                | ',' :: r4 =>
                  (parseObjItems fuel r4).map fun (tl2, r5) => (.cons ⟨ks⟩ v tl2, r5)
                | c :: r4 =>
                  if c = rbrace then some (.cons ⟨ks⟩ v .nil, r4) else none
                | [] => none)
             | none => none)
          | _ => none)
       | none => none)
    | _ => none
end

mutual
/-- Structural size of a value: the fuel needed to parse it back. -/
def jsize : JVal → Nat
  | .varr xs => 1 + jsizeArr xs
  | .vobj fs => 1 + jsizeObj fs
  | _ => 1

/-- Structural size of an array's elements. -/
def jsizeArr : JArr → Nat
  | .nil => 0
  | .cons v tl => 1 + jsize v + jsizeArr tl

/-- Structural size of an object's members. -/
def jsizeObj : JObj → Nat
  | .nil => 0
  | .cons _ v tl => 1 + jsize v + jsizeObj tl
end

mutual
/-- Is the value in JSON-decode normal form? (`json.Unmarshal` into
`interface{}` produces only strings, `float64` numbers, booleans, nil,
slices and maps — never `int`/`int32`/`int64`/`float32`.) -/
def decodedB : JVal → Bool
  | .vstr _ => true
  | .vnum _ _ => true
  | .vbool _ => true
  | .vnull => true
  | .vfloat32 _ _ => false
  | .vint _ => false
  | .vint32 _ => false
  | .vint64 _ => false
  | .varr xs => decodedArrB xs
  | .vobj fs => decodedObjB fs

/-- All elements in decode normal form. -/
def decodedArrB : JArr → Bool
  | .nil => true
  | .cons v tl => decodedB v && decodedArrB tl

/-- All member values in decode normal form. -/
def decodedObjB : JObj → Bool
  | .nil => true
  | .cons _ v tl => decodedB v && decodedObjB tl
end

/-- The record list as a JSON array value (what an array-mode file
holds). -/
def recordsToJArr : List Record → JArr
  | [] => .nil
  | r :: rest => .cons (.vobj r) (recordsToJArr rest)

/-! ## JSON source Read/Write/Close (json_source.go:48-140, 174-246)

File discovery (`findFiles`, glob expansion) is operating-system level;
the resolved, ordered file list (each file as its character contents) is
the model's input, as the spec treats it. The `%w`-wrapped causes inside
Go's error messages come from `encoding/json` and are abstracted away:
the model keeps the repo-side message prefixes. -/

/-- Decimal text of a natural number. -/
def natToStr (n : Nat) : String := ⟨natDigits n⟩

/-- Is the input all JSON whitespace? (`json.Unmarshal` rejects trailing
non-whitespace data.) -/
def isWsOnlyList (s : List Char) : Bool :=
  match skipWs s with
  | [] => true
  | _ => false

/-- The open-writer state of a `JSONSource`: whether `j.writer` has been
created, and the bytes written so far. -/
structure WriteState where
  opened : Bool
  out : List Char
  deriving DecidableEq

/-- A fresh source: `j.writer == nil`, nothing written. -/
def freshWriter : WriteState := ⟨false, []⟩

/-- `json.Encoder.Encode` of one record with `SetIndent("", "  ")`:
the indented value followed by a newline. -/
def jsonEncode (r : Record) : List Char :=
  renderVal 0 (.vobj r) ++ ['\n']

/-- The record loop of `JSONSource.Write` (json_source.go:103-123): in
`array` mode a `",\n"` separator before every record except the first
*of this call*, then schema validation, then the encoded record. -/
def writeRecordsLoop (mode : String) (schema : SchemaConfig) :
    WriteState → Nat → List Record → Except String WriteState
  | st, _, [] => .ok st
  | st, i, r :: rest =>
    let st1 : WriteState :=
      if mode = "array" ∧ 0 < i then { st with out := st.out ++ [',', '\n'] } else st
    match validateRecord schema r with
    | .error e => .error ("record validation failed: " ++ e)
    | .ok _ =>
      writeRecordsLoop mode schema { st1 with out := st1.out ++ jsonEncode r } (i + 1) rest

/-- `JSONSource.Write` (json_source.go:77-126): on the first call the file
is created and, in `array` mode, `"[\n"` is emitted; then the record loop
runs with a per-call index. -/
def jsonWrite (src : JSONSource) (st : WriteState) (records : List Record) :
    Except String WriteState :=
  let st0 : WriteState :=
    if st.opened then st
    else ⟨true, st.out ++ (if src.mode = "array" then ['[', '\n'] else [])⟩
  writeRecordsLoop src.mode src.schema st0 0 records

/-- `JSONSource.Close` (json_source.go:129-140): in `array` mode with an
open writer, append `"\n]"`; the final file contents. -/
def jsonClose (src : JSONSource) (st : WriteState) : List Char :=
  if st.opened ∧ src.mode = "array" then st.out ++ ['\n', ']'] else st.out

/-- Element loop of `readJSONArray` (json_source.go:197-209): each raw
element is unmarshalled into a `Record` (an object; JSON `null`
unmarshals into a nil map, i.e. an empty record) and validated. -/
def arrayElemsToRecords (schema : SchemaConfig) : Nat → JArr → Except String (List Record)
  | _, .nil => .ok []
  | i, .cons v tl =>
    match v with
    | .vobj r =>
      (match validateRecord schema r with
       | .error e => .error ("record " ++ natToStr i ++ " validation failed: " ++ e)
       | .ok _ =>
         (match arrayElemsToRecords schema (i + 1) tl with
          | .error e => .error e
          | .ok rs => .ok (r :: rs)))
    | .vnull =>
      (match validateRecord schema JObj.nil with
       | .error e => .error ("record " ++ natToStr i ++ " validation failed: " ++ e)
       | .ok _ =>
         (match arrayElemsToRecords schema (i + 1) tl with
          | .error e => .error e
          | .ok rs => .ok (JObj.nil :: rs)))
    | _ => .error ("failed to unmarshal record " ++ natToStr i)

/-- `JSONSource.readJSONArray` (json_source.go:189-212): one
`Decoder.Decode` into a raw-element slice (data after the top-level value
is not read), then per-element unmarshal + validation. -/
def readJSONArray (schema : SchemaConfig) (content : List Char) :
    Except String (List Record) :=
  match parseVal (2 * content.length + 2) content with
  | some (.varr xs, _) => arrayElemsToRecords schema 0 xs
  | _ => .error "failed to decode JSON array"

/-- Split on `'\n'` into physical lines (`bufio.ScanLines`; a trailing
final newline yields a final empty line, which the reader skips). -/
def splitLines : List Char → List (List Char)
  | [] => [[]]
  | '\n' :: tl => [] :: splitLines tl
  | c :: tl =>
    match splitLines tl with
    | l :: ls => (c :: l) :: ls
    | [] => [[c]]

/-- `bufio.ScanLines` also strips one trailing `'\r'`. -/
def dropCR (l : List Char) : List Char :=
  match l.reverse with
  | '\r' :: rest => rest.reverse
  | _ => l

/-- Line loop of `readJSONLines` (json_source.go:220-239): 1-based line
numbers, empty lines skipped, each line unmarshalled into a `Record` and
validated. -/
def linesLoop (schema : SchemaConfig) : Nat → List (List Char) → Except String (List Record)
  | _, [] => .ok []
  | num, line :: rest =>
    let l := dropCR line
    if l.length = 0 then linesLoop schema (num + 1) rest
    else
      match parseVal (2 * l.length + 2) l with
      | some (.vobj r, trail) =>
        if isWsOnlyList trail then
          (match validateRecord schema r with
           | .error e => .error ("line " ++ natToStr num ++ " validation failed: " ++ e)
           | .ok _ =>
             (match linesLoop schema (num + 1) rest with
              | .error e => .error e
              | .ok rs => .ok (r :: rs)))
        else .error ("failed to unmarshal line " ++ natToStr num)
      | some (.vnull, trail) =>
        if isWsOnlyList trail then
          (match validateRecord schema JObj.nil with
           | .error e => .error ("line " ++ natToStr num ++ " validation failed: " ++ e)
           | .ok _ =>
             (match linesLoop schema (num + 1) rest with
              | .error e => .error e
              | .ok rs => .ok (JObj.nil :: rs)))
        else .error ("failed to unmarshal line " ++ natToStr num)
      | _ => .error ("failed to unmarshal line " ++ natToStr num)

/-- `JSONSource.readJSONLines` (json_source.go:215-246). -/
def readJSONLines (schema : SchemaConfig) (content : List Char) :
    Except String (List Record) :=
  linesLoop schema 1 (splitLines content)

/-- `JSONSource.readFile` (json_source.go:175-186): decode per mode. -/
def readFileContents (src : JSONSource) (content : List Char) :
    Except String (List Record) :=
  if src.mode = "array" then readJSONArray src.schema content
  else readJSONLines src.schema content

/-- The per-file loop of `JSONSource.Read` (json_source.go:60-71),
concatenating in file order. -/
def readLoop (src : JSONSource) : List (List Char) → Except String (List Record)
  | [] => .ok []
  | f :: rest =>
    match readFileContents src f with
    | .error e => .error ("failed to read file: " ++ e)
    | .ok recs =>
      (match readLoop src rest with
       | .error e => .error e
       | .ok more => .ok (recs ++ more))

/-- `JSONSource.Read` (json_source.go:48-74) over the resolved file list:
an empty list is an error, never an empty result. -/
def jsonRead (src : JSONSource) (files : List (List Char)) :
    Except String (List Record) :=
  if files.isEmpty then
    .error ("no files found matching pattern: " ++ src.path)
  else readLoop src files

/-- Parse fuel consumed by a record list (one composite level per record
plus the sizes of its members). -/
def recsSize : List Record → Nat
  | [] => 0
  | r :: rs => 1 + jsize (.vobj r) + recsSize rs

/-- Are all records in JSON-decode normal form? -/
def recsDecodedB : List Record → Bool
  | [] => true
  | r :: rs => decodedObjB r && recsDecodedB rs

/-- The bytes the array-mode record loop appends for every record after
the first of a call: a `",\n"` separator, then the encoded record. -/
def commaBlock : List Record → List Char
  | [] => []
  | r :: rs => ',' :: '\n' :: (jsonEncode r ++ commaBlock rs)

/-- The text of a single-call array-mode file after its first rendered
record: for each later record the `"\n"` ending the previous `Encode`,
the `",\n"` separator and the record itself; at the end the final
`Encode`'s `"\n"` and the `"\n]"` of `Close`. -/
def fileTail : List Record → List Char
  | [] => '\n' :: '\n' :: ']' :: []
  | r :: rs => '\n' :: ',' :: '\n' :: (renderVal 0 (.vobj r) ++ fileTail rs)

/-- A demonstration schema requiring a string field `text`. -/
def textSchema : SchemaConfig := ⟨[⟨"text", "string"⟩]⟩

/-- The demonstration record mapping `text` to `"hi"`. -/
def recHi : Record := JObj.cons "text" (.vstr "hi") .nil

/-! ## Gemini evaluator (gemini.go)

The HTTP transport (`makeAPICall`) is the external provider boundary: it
is modelled as an oracle from the built request body to either a decoded
JSON response object or a transport/status error. Everything on either
side of that call (template application, request construction, response
parsing) is embedded from the source. -/

/-- Append an entry (Go map assignment of a fresh key). -/
def JObj.snoc : JObj → String → JVal → JObj
  | .nil, k, v => .cons k v .nil
  | .cons k0 v0 tl, k, v => .cons k0 v0 (tl.snoc k v)

/-- `buildRequestBody` (gemini.go:112-144): the `contents`/`parts`/`text`
nesting plus an optional `generationConfig` taken from the evaluator's
params. -/
def buildRequestBody (params : List (String × JVal)) (prompt : String) : JObj :=
  let base : JObj :=
    .cons "contents"
      (.varr (.cons
        (.vobj (.cons "parts"
          (.varr (.cons (.vobj (.cons "text" (.vstr prompt) .nil)) .nil)) .nil))
        .nil)) .nil
  let gc : JObj :=
    match cfgLookup params "temperature", cfgLookup params "max_tokens" with
    | some t, some mt => .cons "temperature" t (.cons "maxOutputTokens" mt .nil)
    | some t, none => .cons "temperature" t .nil
    | none, some mt => .cons "maxOutputTokens" mt .nil
    | none, none => .nil
  match gc with
  | .nil => base
  | _ => base.snoc "generationConfig" (.vobj gc)

/-- `strings.TrimSpace` (ASCII whitespace suffices for the texts in
scope). -/
def trimSpace (s : List Char) : List Char :=
  ((skipWs ((skipWs s.reverse))).reverse)

/-- `parseResponse` (gemini.go:191-255): drill into
`candidates[0].content.parts[0].text`, keep the raw text under
`"response"`, additionally parse it as JSON under `"parsed"` when it
looks like JSON and parses, and collect the optional metadata fields. -/
def parseResponse (response : JObj) : Except String (JObj × JObj) :=
  match response.lookup "candidates" with
  | some (.varr (JArr.cons c0 _)) =>
    (match c0 with
     | .vobj candidate =>
       (match candidate.lookup "content" with
        | some (.vobj content) =>
          (match content.lookup "parts" with
           | some (.varr (JArr.cons p0 _)) =>
             (match p0 with
              | .vobj part =>
                (match part.lookup "text" with
                 | some (.vstr text) =>
                   let output0 : JObj := .cons "response" (.vstr text) .nil
                   let trimmed := trimSpace text.data
                   let looksJson : Bool :=
                     match trimmed with
                     | c :: _ => c = lbrace ∨ c = '['
                     | [] => false
                   let output : JObj :=
                     if looksJson then
                       match parseVal (2 * trimmed.length + 2) trimmed with
                       | some (jv, rest) =>
                         if isWsOnlyList rest then output0.snoc "parsed" jv else output0
                       | none => output0
                     else output0
                   let md0 : JObj := .nil
                   let md1 : JObj :=
                     match candidate.lookup "safetyRatings" with
                     | some sr => md0.snoc "safetyRatings" sr
                     | none => md0
                   let md2 : JObj :=
                     match candidate.lookup "finishReason" with
                     | some fr => md1.snoc "finishReason" fr
                     | none => md1
                   let md3 : JObj :=
                     match response.lookup "usageMetadata" with
                     | some um => md2.snoc "usage" um
                     | none => md2
                   .ok (output, md3)
                 | _ => .error "no text in part")
              | _ => .error "invalid part format")
           | _ => .error "no parts in content")
        | _ => .error "no content in candidate")
     | _ => .error "invalid candidate format")
  | _ => .error "no candidates in response"

/-- `Result` (evaluator.go): per-record outcome; nil maps and the nil
error are `none`. -/
structure Result where
  input : Record
  output : Option JObj
  metadata : Option JObj
  error : Option String
  deriving DecidableEq

/-- The provider transport: from built request body to decoded response
object or error (`makeAPICall`, gemini.go:147-188). -/
abbrev ApiOracle := JObj → Except String JObj

/-- `GeminiEvaluator.Evaluate` (gemini.go:43-74): template, build request,
call provider, parse response; every exit carries the input record, and
the error (if any) is returned both in the `Result` and as the second
component. -/
def Evaluate (api : ApiOracle) (params : List (String × JVal))
    (record : Record) (prompt : String) : Result × Option String :=
  match api (buildRequestBody params (applyPromptTemplate prompt record)) with
  | .error err => (⟨record, none, none, some err⟩, some err)
  | .ok response =>
    match parseResponse response with
    | .error err => (⟨record, none, none, some err⟩, some err)
    | .ok (output, metadata) => (⟨record, some output, some metadata, none⟩, none)

/-- `GeminiEvaluator.BatchEvaluate` (gemini.go:77-95): one sequential
`Evaluate` per record into the slot of the record's index; on a
per-record error the slot gets `Result{Input: record, Error: err}`; the
batch-level error is always nil. -/
def BatchEvaluate (api : ApiOracle) (params : List (String × JVal))
    (records : List Record) (prompt : String) : List Result × Option String :=
  (records.map fun record =>
    match Evaluate api params record prompt with
    | (result, none) => result
    | (_, some err) => ⟨record, none, none, some err⟩,
   none)

/-! ## Batch Dispatcher (spec §4.4, §5)

Modelled from the spec: the Batch Dispatcher with its
concurrency bound and `onError` policy is not implemented in the source
(`BatchEvaluate` carries the TODO "Implement concurrent processing based
on controls.concurrency", and only the `controls.concurrency` /
`controls.on_error` configuration fields and the `Controller` interface
exist). The error-policy behavior is modelled from §4.4's words as a
record-at-a-time run, and the bounded worker pool of §5 as a small-step
admission/completion relation. -/

/-- One record evaluation as the dispatcher sees it: a success payload or
a failure, always carrying the input record. -/
def evalOne (oracle : Record → Except String JObj) (r : Record) : Result :=
  match oracle r with
  | .ok out => ⟨r, some out, none, none⟩
  | .error e => ⟨r, none, none, some e⟩

/-- Modelled from the spec: `onError = skip` — every record is evaluated,
a failed record's outcome is recorded as a failure, and the run
completes. -/
def dispatchSkip (oracle : Record → Except String JObj)
    (records : List Record) : List Result :=
  records.map (evalOne oracle)

/-- Modelled from the spec: `onError = fail` — the first record failure
terminates the run, no further record is admitted, and the run reports
the triggering failure. -/
def dispatchFail (oracle : Record → Except String JObj) :
    List Record → List Result × Option String
  | [] => ([], none)
  | r :: rest =>
    match oracle r with
    | .error e => ([⟨r, none, none, some e⟩], some e)
    | .ok out =>
      let (res, err) := dispatchFail oracle rest
      (⟨r, some out, none, none⟩ :: res, err)

/-- A demonstration record marked as the failing one. -/
def demoBad : Record := JObj.cons "bad" (.vbool true) .nil

/-- A demonstration provider oracle: fails on `demoBad`, succeeds on
every other record. -/
def demoOracle : Record → Except String JObj :=
  fun r => if r = demoBad then .error "boom" else .ok JObj.nil

/-- Modelled from the spec: the state of the bounded worker pool of §5 —
pending records not yet admitted, records in flight, and finished
records. -/
structure SchedState where
  pending : List Record
  inFlight : List Record
  done : List Record

/-- Modelled from the spec: one scheduler transition — admit the next
pending record while the concurrency bound `k` is not saturated, or
complete any in-flight record (completion order unconstrained). -/
inductive SchedStep (k : Nat) : SchedState → SchedState → Prop
  | launch (r : Record) (pending' inFlight done : List Record) :
      inFlight.length < k →
      SchedStep k ⟨r :: pending', inFlight, done⟩ ⟨pending', r :: inFlight, done⟩
  | complete (r : Record) (pending pre post done : List Record) :
      SchedStep k ⟨pending, pre ++ r :: post, done⟩ ⟨pending, pre ++ post, r :: done⟩

/-- Modelled from the spec: states reachable by the worker pool from the
initial state (all records pending, none in flight). -/
inductive SchedReach (k : Nat) (records : List Record) : SchedState → Prop
  | init : SchedReach k records ⟨records, [], []⟩
  | step {s s' : SchedState} :
      SchedReach k records s → SchedStep k s s' → SchedReach k records s'

theorem validateFieldType_ok_iff (v : JVal) (t : String) :
    validateFieldType v t = .ok () ↔ matchesKind v t = true := by
  unfold validateFieldType matchesKind
  split_ifs <;> cases v <;> simp

theorem validateFields_ok_iff (record : Record) (fs : List FieldConfig) :
    validateFields record fs = .ok () ↔
      ∀ f ∈ fs, ∃ v, record.lookup f.name = some v ∧ matchesKind v f.type = true := by
  induction fs with
  | nil => simp [validateFields]
  | cons f rest ih =>
    simp only [validateFields]
    cases hl : record.lookup f.name with
    | none =>
      simp only [List.mem_cons]
      constructor
      · intro h; cases h
      · intro h
        rcases h f (Or.inl rfl) with ⟨v, hv, _⟩
        rw [hl] at hv; cases hv
    | some v =>
      cases hvt : validateFieldType v f.type with
      | error e =>
        simp only [hvt]
        simp only [List.mem_cons]
        constructor
        · intro h; cases h
        · intro h
          rcases h f (Or.inl rfl) with ⟨w, hw, hm⟩
          rw [hl] at hw
          cases hw
          rw [← validateFieldType_ok_iff] at hm
          rw [hvt] at hm; cases hm
      | ok u =>
        simp only [hvt]; rw [ih]
        simp only [List.mem_cons]
        constructor
        · intro h g hg
          cases hg with
          | inl hg =>
            subst hg
            exact ⟨v, hl, (validateFieldType_ok_iff v g.type).mp hvt⟩
          | inr hg => exact h g hg
        · intro h g hg
          exact h g (Or.inr hg)

theorem lookup_cons_ne (k : String) (v : JVal) (r : JObj) (name : String)
    (h : name ≠ k) : (JObj.cons k v r).lookup name = r.lookup name := by
  have hk : ¬ k = name := fun hk => h hk.symm
  simp [JObj.lookup, hk]

theorem validateFields_extra_key (k : String) (v : JVal) (r : Record)
    (fs : List FieldConfig) (h : ∀ f ∈ fs, f.name ≠ k) :
    validateFields (JObj.cons k v r) fs = validateFields r fs := by
  induction fs with
  | nil => rfl
  | cons f rest ih =>
    simp only [validateFields, lookup_cons_ne k v r f.name (h f (by simp))]
    split
    · rfl
    · split
      · rfl
      · exact ih (fun g hg => h g (by simp [hg]))

/-- C5: validation of a record against a schema succeeds iff the record
contains every schema field with a value of the declared kind; extra keys
are ignored; no coercion (the string "true" is rejected for a boolean
field, while integer and floating numeric representations are both
accepted for a number field). -/
theorem claim_C5_validation :
    (∀ (record : Record) (schema : SchemaConfig),
        validateRecord schema record = Except.ok () ↔
          ∀ f ∈ schema.fields,
            ∃ v, record.lookup f.name = some v ∧ matchesKind v f.type = true) ∧
    (∀ (record : Record) (schema : SchemaConfig) (k : String) (v : JVal),
        (∀ f ∈ schema.fields, f.name ≠ k) →
          validateRecord schema (JObj.cons k v record) =
            validateRecord schema record) ∧
    validateFieldType (JVal.vstr "true") "boolean" =
      Except.error "expected boolean, got string" ∧
    validateFieldType (JVal.vint 3) "number" = Except.ok () ∧
    validateFieldType (JVal.vnum 35 1) "number" = Except.ok () := by
  refine ⟨fun record schema => validateFields_ok_iff record schema.fields,
    fun record schema k v h => validateFields_extra_key k v record schema.fields h,
    ?_, ?_, ?_⟩ <;> rfl

/-- Witness for C5's extra-key conjunct at a concrete record and schema. -/
theorem claim_C5_validation_witness :
    validateRecord ⟨[⟨"text", "string"⟩]⟩
        (JObj.cons "extra" JVal.vnull (JObj.cons "text" (JVal.vstr "hi") JObj.nil)) =
      validateRecord ⟨[⟨"text", "string"⟩]⟩
        (JObj.cons "text" (JVal.vstr "hi") JObj.nil) :=
  claim_C5_validation.2.1 (JObj.cons "text" (JVal.vstr "hi") JObj.nil)
    ⟨[⟨"text", "string"⟩]⟩ "extra" JVal.vnull (by decide)

/-- C8 counterexample: a configuration whose `path` is the empty string is
accepted by `NewJSONSource` (the claim says construction must fail). -/
theorem claim_C8_counterexample :
    NewJSONSource [("path", JVal.vstr "")] ⟨[]⟩ =
      Except.ok ⟨"", "array", ⟨[]⟩⟩ := by rfl

/-- C8 (amended): construction succeeds iff the `path` key holds a string
(possibly empty) and the resolved mode (the `mode` string if non-empty,
else the default `"array"`; a missing or non-string `mode` resolves to
`"array"`) is `"array"` or `"lines"`. -/
theorem newJSONSource_modeGate (path mode : String) (schema : SchemaConfig) :
    (∃ s, (if mode ≠ "array" ∧ mode ≠ "lines" then
        Except.error ("unsupported mode: " ++ mode ++ " (must be 'array' or 'lines')")
      else
        Except.ok (⟨path, mode, schema⟩ : JSONSource)) = Except.ok s) ↔
      (mode = "array" ∨ mode = "lines") := by
  by_cases hm : mode = "array" ∨ mode = "lines"
  · rw [if_neg (fun hcon => hm.elim (fun h1 => hcon.1 h1) (fun h1 => hcon.2 h1))]
    exact iff_of_true ⟨_, rfl⟩ hm
  · push_neg at hm
    rw [if_pos ⟨hm.1, hm.2⟩]
    exact iff_of_false (by rintro ⟨s, hs⟩; cases hs) (fun h => h.elim hm.1 hm.2)

theorem claim_C8_construction :
    ∀ (cfg : List (String × JVal)) (schema : SchemaConfig),
      (∃ s, NewJSONSource cfg schema = Except.ok s) ↔
        ((∃ p, cfgLookup cfg "path" = some (JVal.vstr p)) ∧
          (resolvedMode cfg = "array" ∨ resolvedMode cfg = "lines")) := by
  intro cfg schema
  unfold NewJSONSource resolvedMode
  cases hp : cfgLookup cfg "path" with
  | none => simp
  | some v =>
    cases v with
    | vstr p =>
      rw [newJSONSource_modeGate]
      exact ⟨fun h => ⟨⟨p, rfl⟩, h⟩, fun h => h.2⟩
    | vnum m e =>
      exact iff_of_false (by rintro ⟨s, hs⟩; cases hs)
        (by rintro ⟨⟨p, hp2⟩, -⟩; cases hp2)
    | vfloat32 m e =>
      exact iff_of_false (by rintro ⟨s, hs⟩; cases hs)
        (by rintro ⟨⟨p, hp2⟩, -⟩; cases hp2)
    | vint n =>
      exact iff_of_false (by rintro ⟨s, hs⟩; cases hs)
        (by rintro ⟨⟨p, hp2⟩, -⟩; cases hp2)
    | vint32 n =>
      exact iff_of_false (by rintro ⟨s, hs⟩; cases hs)
        (by rintro ⟨⟨p, hp2⟩, -⟩; cases hp2)
    | vint64 n =>
      exact iff_of_false (by rintro ⟨s, hs⟩; cases hs)
        (by rintro ⟨⟨p, hp2⟩, -⟩; cases hp2)
    | vbool b =>
      exact iff_of_false (by rintro ⟨s, hs⟩; cases hs)
        (by rintro ⟨⟨p, hp2⟩, -⟩; cases hp2)
    | vnull =>
      exact iff_of_false (by rintro ⟨s, hs⟩; cases hs)
        (by rintro ⟨⟨p, hp2⟩, -⟩; cases hp2)
    | varr xs =>
      exact iff_of_false (by rintro ⟨s, hs⟩; cases hs)
        (by rintro ⟨⟨p, hp2⟩, -⟩; cases hp2)
    | vobj fs =>
      exact iff_of_false (by rintro ⟨s, hs⟩; cases hs)
        (by rintro ⟨⟨p, hp2⟩, -⟩; cases hp2)

theorem replaceAllFuel_of_not_occurs (pat repl : List Char) :
    ∀ (fuel : Nat) (s : List Char), ¬ pat <:+: s →
      replaceAllFuel pat repl fuel s = s := by
  intro fuel
  induction fuel with
  | zero => intro s _; rfl
  | succ n ih =>
    intro s h
    cases s with
    | nil => rfl
    | cons c tl =>
      rw [replaceAllFuel, if_neg]
      · rw [ih tl (fun hinf => h (hinf.trans (List.suffix_cons c tl).isInfix))]
      · rintro ⟨-, hpre⟩
        exact h (List.isPrefixOf_iff_prefix.mp hpre).isInfix

theorem strReplaceAll_of_not_occurs (s pat repl : String)
    (h : ¬ pat.data <:+: s.data) : strReplaceAll s pat repl = s := by
  unfold strReplaceAll replaceAllList
  rw [replaceAllFuel_of_not_occurs pat.data repl.data s.data.length s.data h]

theorem applyPromptTemplateGo_id :
    ∀ (r : Record) (p : String),
      (∀ kv ∈ r.toList, ¬ (placeholder kv.1).data <:+: p.data) →
      applyPromptTemplateGo r p = p
  | .nil, p, _ => rfl
  | .cons k v tl, p, h => by
    rw [applyPromptTemplateGo,
      strReplaceAll_of_not_occurs p (placeholder k) (formatValue v)
        (h (k, v) (by simp [JObj.toList]))]
    exact applyPromptTemplateGo_id tl p (fun kv hkv => h kv (by simp [JObj.toList, hkv]))

/-- C6: template rendering replaces every `{{field}}` occurrence for each
record field with the field's stringified value (one sequential
`ReplaceAll` per field), leaves templates without present-field
placeholders unchanged (so absent-field placeholders stay verbatim, with
no error), and yields the two concrete results the specification gives. -/
theorem claim_C6_template :
    applyPromptTemplate "Text: \x7b\x7btext\x7d\x7d"
        (JObj.cons "text" (JVal.vstr "hi") JObj.nil) = "Text: hi" ∧
    applyPromptTemplate "Text: \x7b\x7btext\x7d\x7d"
        (JObj.cons "label" (JVal.vstr "pos") JObj.nil) =
      "Text: \x7b\x7btext\x7d\x7d" ∧
    (∀ (p : String) (r : Record),
        (∀ kv ∈ r.toList, ¬ (placeholder kv.1).data <:+: p.data) →
          applyPromptTemplate p r = p) ∧
    (∀ (p k : String) (v : JVal) (tl : Record),
        applyPromptTemplate p (JObj.cons k v tl) =
          applyPromptTemplate (strReplaceAll p (placeholder k) (formatValue v)) tl) := by
  refine ⟨by decide, by decide, fun p r h => applyPromptTemplateGo_id r p h,
    fun p k v tl => rfl⟩

/-- Witness for C6's unchanged-template conjunct at a concrete template and
record. -/
theorem claim_C6_template_witness :
    applyPromptTemplate "Hello" (JObj.cons "text" (JVal.vstr "hi") JObj.nil) =
      "Hello" :=
  claim_C6_template.2.2.1 "Hello"
    (JObj.cons "text" (JVal.vstr "hi") JObj.nil) (by decide)

theorem evaluate_cases (api : ApiOracle) (params : List (String × JVal))
    (r : Record) (prompt : String) :
    (∃ e, Evaluate api params r prompt = (⟨r, none, none, some e⟩, some e)) ∨
    (∃ o m, Evaluate api params r prompt = (⟨r, some o, some m, none⟩, none)) := by
  unfold Evaluate
  cases api (buildRequestBody params (applyPromptTemplate prompt r)) with
  | error e => exact Or.inl ⟨e, rfl⟩
  | ok resp =>
    cases hp : parseResponse resp with
    | error e => exact Or.inl ⟨e, by simp only [hp]⟩
    | ok p =>
      rcases p with ⟨o, m⟩
      exact Or.inr ⟨o, m, by simp only [hp]⟩

theorem evaluate_input (api : ApiOracle) (params : List (String × JVal))
    (r : Record) (prompt : String) : (Evaluate api params r prompt).1.input = r := by
  rcases evaluate_cases api params r prompt with ⟨e, h⟩ | ⟨o, m, h⟩ <;> rw [h]

theorem batch_entry_eval (api : ApiOracle) (params : List (String × JVal))
    (r : Record) (prompt : String) :
    (match Evaluate api params r prompt with
     | (result, none) => result
     | (_, some err) => (⟨r, none, none, some err⟩ : Result)) =
      (Evaluate api params r prompt).1 := by
  rcases evaluate_cases api params r prompt with ⟨e, h⟩ | ⟨o, m, h⟩ <;> rw [h]

/-- C4: `BatchEvaluate` returns exactly one `Result` per input record, in
input order, with `Result[i].Input = Record[i]`, and a per-record failure
does not abort the batch (the alignment holds for every oracle, failing
ones included). -/
theorem claim_C4_batch_alignment :
    ∀ (api : ApiOracle) (params : List (String × JVal))
      (records : List Record) (prompt : String),
      (BatchEvaluate api params records prompt).1.length = records.length ∧
      (BatchEvaluate api params records prompt).1.map Result.input = records := by
  intro api params records prompt
  refine ⟨by simp [BatchEvaluate], ?_⟩
  show (records.map _).map Result.input = records
  rw [List.map_map]
  have hp : ∀ r : Record,
      (Result.input ∘ fun record =>
        match Evaluate api params record prompt with
        | (result, none) => result
        | (_, some err) => (⟨record, none, none, some err⟩ : Result)) r = id r := by
    intro r
    simp only [Function.comp_apply, id_eq, batch_entry_eval]
    exact evaluate_input api params r prompt
  rw [funext hp, List.map_id]

/-- C10: `BatchEvaluate` always returns a nil batch-level error; every
per-record provider failure is reported only through the corresponding
`Result`'s `Error` field (the result list is exactly the per-record
`Evaluate` outcomes). -/
theorem claim_C10_no_batch_error :
    ∀ (api : ApiOracle) (params : List (String × JVal))
      (records : List Record) (prompt : String),
      (BatchEvaluate api params records prompt).2 = none ∧
      (BatchEvaluate api params records prompt).1 =
        records.map (fun r => (Evaluate api params r prompt).1) := by
  intro api params records prompt
  refine ⟨rfl, ?_⟩
  show records.map _ = _
  exact List.map_congr_left fun r _ => batch_entry_eval api params r prompt

/-- C2: with exactly one always-failing record, `skip` completes with a
full-length result sequence containing exactly one failure, while `fail`
stops at the failing record, admits no later record, and reports the
triggering failure. -/
theorem claim_C2_error_policy :
    ∀ (oracle : Record → Except String JObj) (pre post : List Record)
      (bad : Record) (e : String),
      (∀ r ∈ pre, ∃ out, oracle r = .ok out) →
      oracle bad = .error e →
      (∀ r ∈ post, ∃ out, oracle r = .ok out) →
      (dispatchSkip oracle (pre ++ bad :: post)).length =
          (pre ++ bad :: post).length ∧
      (dispatchSkip oracle (pre ++ bad :: post)).countP
          (fun res => res.error.isSome) = 1 ∧
      dispatchFail oracle (pre ++ bad :: post) =
        (pre.map (evalOne oracle) ++ [⟨bad, none, none, some e⟩], some e) := by
  intro oracle pre post bad e hpre hbad hpost
  refine ⟨by simp [dispatchSkip], ?_, ?_⟩
  · unfold dispatchSkip
    rw [List.map_append, List.countP_append, List.map_cons, List.countP_cons]
    have hz : ∀ l : List Record, (∀ r ∈ l, ∃ out, oracle r = .ok out) →
        (l.map (evalOne oracle)).countP (fun res => res.error.isSome) = 0 := by
      intro l hl
      rw [List.countP_eq_zero]
      intro a ha
      rcases List.mem_map.mp ha with ⟨r, hr, rfl⟩
      rcases hl r hr with ⟨out, hout⟩
      simp [evalOne, hout]
    rw [hz pre hpre, hz post hpost]
    simp [evalOne, hbad]
  · induction pre with
    | nil =>
      simp only [List.nil_append, List.map_nil]
      unfold dispatchFail
      rw [hbad]
    | cons r pre' ih =>
      rcases hpre r (by simp) with ⟨out, hout⟩
      have ih' := ih (fun g hg => hpre g (by simp [hg]))
      simp only [List.cons_append]
      unfold dispatchFail
      rw [hout, ih']
      simp [evalOne, hout]

/-- Witness for C2 at a concrete oracle and record lists. -/
theorem claim_C2_error_policy_witness :
    (dispatchSkip demoOracle ([JObj.nil] ++ demoBad :: [JObj.nil])).length =
        ([JObj.nil] ++ demoBad :: [JObj.nil]).length ∧
    (dispatchSkip demoOracle ([JObj.nil] ++ demoBad :: [JObj.nil])).countP
        (fun res => res.error.isSome) = 1 ∧
    dispatchFail demoOracle ([JObj.nil] ++ demoBad :: [JObj.nil]) =
      ([JObj.nil].map (evalOne demoOracle) ++ [⟨demoBad, none, none, some "boom"⟩],
        some "boom") :=
  claim_C2_error_policy demoOracle [JObj.nil] [JObj.nil] demoBad "boom"
    (by
      intro r hr
      rcases List.mem_singleton.mp hr with rfl
      exact ⟨JObj.nil, rfl⟩)
    rfl
    (by
      intro r hr
      rcases List.mem_singleton.mp hr with rfl
      exact ⟨JObj.nil, rfl⟩)

/-- C3: along every run of the (spec-modelled) bounded worker pool, the
number of in-flight evaluations never exceeds the concurrency bound, and
whenever the bound is not saturated and records are pending, admission of
the next pending record is enabled. -/
theorem claim_C3_concurrency_bound :
    ∀ (k : Nat) (records : List Record) (s : SchedState),
      SchedReach k records s →
      s.inFlight.length ≤ k ∧
      (s.pending ≠ [] → s.inFlight.length < k → ∃ s', SchedStep k s s') := by
  intro k records s h
  constructor
  · induction h with
    | init => simp
    | step hr hs ih =>
      cases hs with
      | launch r p i d hlt => simpa using hlt
      | complete r pending pre post done =>
        simp only [List.length_append] at ih ⊢
        simp only [List.length_cons] at ih
        omega
  · intro hp hlt
    cases s with
    | mk pending inFlight done =>
      cases pending with
      | nil => exact absurd rfl hp
      | cons r p' => exact ⟨_, SchedStep.launch r p' inFlight done hlt⟩

/-- Witness for C3 at a concrete bound and state. -/
theorem claim_C3_concurrency_bound_witness :
    (SchedState.mk [JObj.nil] [] []).inFlight.length ≤ 2 ∧
    ((SchedState.mk [JObj.nil] [] []).pending ≠ [] →
      (SchedState.mk [JObj.nil] [] []).inFlight.length < 2 →
      ∃ s', SchedStep 2 (SchedState.mk [JObj.nil] [] []) s') :=
  claim_C3_concurrency_bound 2 [JObj.nil] ⟨[JObj.nil], [], []⟩ SchedReach.init

/-! ## Decimal digit strings -/

theorem digitChar_toNat (d : Nat) (h : d < 10) : (digitChar d).toNat = 48 + d := by
  interval_cases d <;> decide

theorem isDigitChar_digitChar (d : Nat) (h : d < 10) :
    isDigitChar (digitChar d) = true := by
  interval_cases d <;> decide

theorem digitChar_val (d : Nat) (h : d < 10) : (digitChar d).toNat - 48 = d := by
  interval_cases d <;> decide

theorem hexVal_hexDigit (x : Nat) (h : x < 16) : hexVal (hexDigit x) = some x := by
  interval_cases x <;> decide

theorem isDigitChar_toNat (c : Char) (h : isDigitChar c = true) :
    48 ≤ c.toNat ∧ c.toNat ≤ 57 := by
  unfold isDigitChar at h
  exact of_decide_eq_true h

theorem natDigitsAux_eq (n : Nat) : ∀ (fuel : Nat) (acc : List Char), n < fuel →
    natDigitsAux fuel n acc = natDigits n ++ acc := by
  induction n using Nat.strong_induction_on with
  | _ n ih =>
    intro fuel acc h
    match fuel, h with
    | f + 1, h =>
      rw [natDigitsAux]
      by_cases h10 : n < 10
      · rw [if_pos h10]
        have h2 : natDigits n = [digitChar n] := by
          unfold natDigits
          rw [natDigitsAux, if_pos h10]
        rw [h2]
        rfl
      · rw [if_neg h10]
        have hn : 0 < n := by omega
        have hdiv : n / 10 < n := Nat.div_lt_self hn (by norm_num)
        have hdivf : n / 10 < f := by omega
        rw [ih (n / 10) hdiv f (digitChar (n % 10) :: acc) hdivf]
        have h2 : natDigits n = natDigits (n / 10) ++ [digitChar (n % 10)] := by
          unfold natDigits
          rw [natDigitsAux, if_neg h10,
            ih (n / 10) hdiv n (digitChar (n % 10) :: []) hdiv]
          rfl
        rw [h2, List.append_assoc]
        rfl

theorem natDigits_eq (n : Nat) :
    natDigits n =
      if n < 10 then [digitChar n]
      else natDigits (n / 10) ++ [digitChar (n % 10)] := by
  by_cases h10 : n < 10
  · rw [if_pos h10]
    unfold natDigits
    rw [natDigitsAux, if_pos h10]
  · rw [if_neg h10]
    unfold natDigits
    rw [natDigitsAux, if_neg h10]
    exact natDigitsAux_eq (n / 10) n _ (Nat.div_lt_self (by omega) (by norm_num))

theorem natDigits_all_digits (n : Nat) : ∀ c ∈ natDigits n, isDigitChar c = true := by
  induction n using Nat.strong_induction_on with
  | _ n ih =>
    intro c hc
    rw [natDigits_eq] at hc
    by_cases h10 : n < 10
    · rw [if_pos h10] at hc
      rcases List.mem_singleton.mp hc with rfl
      exact isDigitChar_digitChar n h10
    · rw [if_neg h10] at hc
      rcases List.mem_append.mp hc with hc | hc
      · exact ih (n / 10) (Nat.div_lt_self (by omega) (by norm_num)) c hc
      · rcases List.mem_singleton.mp hc with rfl
        exact isDigitChar_digitChar _ (Nat.mod_lt n (by norm_num))

theorem natDigits_ne_nil (n : Nat) : natDigits n ≠ [] := by
  rw [natDigits_eq]
  by_cases h10 : n < 10
  · rw [if_pos h10]; simp
  · rw [if_neg h10]; simp

theorem valFrom_nil (a : Nat) : valFrom a [] = a := rfl

theorem valFrom_cons (a : Nat) (c : Char) (tl : List Char) :
    valFrom a (c :: tl) = valFrom (a * 10 + (c.toNat - 48)) tl := rfl

theorem valFrom_append (a : Nat) (xs ys : List Char) :
    valFrom a (xs ++ ys) = valFrom (valFrom a xs) ys := by
  induction xs generalizing a with
  | nil => rfl
  | cons c tl ih => rw [List.cons_append, valFrom_cons, valFrom_cons, ih]

theorem valFrom_shift (a : Nat) (xs : List Char) :
    valFrom a xs = a * 10 ^ xs.length + valFrom 0 xs := by
  induction xs generalizing a with
  | nil => simp [valFrom_nil]
  | cons c tl ih =>
    rw [valFrom_cons, ih, List.length_cons]
    conv_rhs => rw [valFrom_cons, ih (0 * 10 + (c.toNat - 48))]
    ring

theorem valFrom_natDigits (n : Nat) : valFrom 0 (natDigits n) = n := by
  induction n using Nat.strong_induction_on with
  | _ n ih =>
    rw [natDigits_eq]
    by_cases h10 : n < 10
    · rw [if_pos h10, valFrom_cons, valFrom_nil]
      rw [digitChar_val n h10]
      omega
    · rw [if_neg h10, valFrom_append,
        ih (n / 10) (Nat.div_lt_self (by omega) (by norm_num)), valFrom_cons,
        valFrom_nil]
      rw [digitChar_val _ (Nat.mod_lt n (by norm_num))]
      omega

theorem natDigits_length_le (k n : Nat) (hk : 1 ≤ k) (h : n < 10 ^ k) :
    (natDigits n).length ≤ k := by
  induction n using Nat.strong_induction_on generalizing k with
  | _ n ih =>
    rw [natDigits_eq]
    by_cases h10 : n < 10
    · rw [if_pos h10, List.length_singleton]
      exact hk
    · rw [if_neg h10]
      have hk2 : 2 ≤ k := by
        by_contra hcon
        have : k = 1 := by omega
        subst this
        simp at h
        omega
      have hdiv : n / 10 < 10 ^ (k - 1) := by
        apply Nat.div_lt_of_lt_mul
        calc n < 10 ^ k := h
          _ = 10 * 10 ^ (k - 1) := by
            rw [← pow_succ']
            congr 1
            omega
      have := ih (n / 10) (Nat.div_lt_self (by omega) (by norm_num)) (k - 1)
        (by omega) hdiv
      simp only [List.length_append, List.length_singleton]
      omega

theorem parseDigits_spec : ∀ (ds : List Char) (acc cnt : Nat) (rest : List Char),
    (∀ c ∈ ds, isDigitChar c = true) → digitBoundary rest = true →
    parseDigits acc cnt (ds ++ rest) = (valFrom acc ds, cnt + ds.length, rest) := by
  intro ds
  induction ds with
  | nil =>
    intro acc cnt rest _ hb
    cases rest with
    | nil => rfl
    | cons c tl =>
      unfold digitBoundary at hb
      simp only [Bool.not_eq_true'] at hb
      rw [List.nil_append, parseDigits, if_neg (by simp [hb])]
      simp [valFrom_nil]
  | cons c tl ih =>
    intro acc cnt rest hd hb
    rw [List.cons_append, parseDigits, if_pos (by simp [hd c (by simp)])]
    rw [ih _ _ rest (fun g hg => hd g (by simp [hg])) hb, valFrom_cons]
    have harith : cnt + 1 + tl.length = cnt + (c :: tl).length := by
      simp only [List.length_cons]
      omega
    rw [harith]

theorem valFrom_replicate_zero (k : Nat) :
    valFrom 0 (List.replicate k '0') = 0 := by
  induction k with
  | zero => rfl
  | succ j ih =>
    rw [List.replicate_succ, valFrom_cons]
    have h0 : (0 : Nat) * 10 + ('0'.toNat - 48) = 0 := by decide
    rw [h0]
    exact ih

/-! ## Number literals round-trip -/

theorem char_toNat_ne {c d : Char} (h : c.toNat ≠ d.toNat) : c ≠ d :=
  fun hc => h (by rw [hc])

theorem isDigitChar_ne_minus (c : Char) (h : isDigitChar c = true) : c ≠ '-' := by
  obtain ⟨h1, h2⟩ := isDigitChar_toNat c h
  exact char_toNat_ne (by rw [show ('-').toNat = 45 from rfl]; omega)

theorem isDigitChar_ne_dot (c : Char) (h : isDigitChar c = true) : c ≠ '.' := by
  obtain ⟨h1, h2⟩ := isDigitChar_toNat c h
  exact char_toNat_ne (by rw [show ('.').toNat = 46 from rfl]; omega)

theorem isDigitChar_ne_rbracket (c : Char) (h : isDigitChar c = true) : c ≠ ']' := by
  obtain ⟨h1, h2⟩ := isDigitChar_toNat c h
  exact char_toNat_ne (by rw [show (']').toNat = 93 from rfl]; omega)

theorem isDigitChar_ne_rbrace (c : Char) (h : isDigitChar c = true) : c ≠ rbrace := by
  obtain ⟨h1, h2⟩ := isDigitChar_toNat c h
  exact char_toNat_ne (by rw [show rbrace.toNat = 125 from rfl]; omega)

theorem isDigitChar_not_ws (c : Char) (h : isDigitChar c = true) :
    isWsChar c = false := by
  obtain ⟨h1, h2⟩ := isDigitChar_toNat c h
  unfold isWsChar
  rw [decide_eq_false_iff_not]
  rintro (rfl | rfl | rfl | rfl) <;> exact absurd h (by decide)

theorem numBoundary_digitBoundary (rest : List Char) (hb : numBoundary rest = true) :
    digitBoundary rest = true := by
  cases rest with
  | nil => rfl
  | cons c tl =>
    unfold numBoundary at hb
    unfold digitBoundary
    simp only [Bool.not_eq_true', Bool.or_eq_false_iff] at hb
    simp [hb.1]

theorem numBoundary_not_dot (rest : List Char) (hb : numBoundary rest = true) :
    headChar rest ≠ some '.' := by
  cases rest with
  | nil => simp [headChar]
  | cons c tl =>
    unfold numBoundary at hb
    simp only [Bool.not_eq_true', Bool.or_eq_false_iff, decide_eq_false_iff_not] at hb
    simp [headChar, hb.2]

theorem natDigits_head (a : Nat) :
    ∃ c cs, natDigits a = c :: cs ∧ isDigitChar c = true := by
  rcases List.exists_cons_of_ne_nil (natDigits_ne_nil a) with ⟨c, cs, hsplit⟩
  exact ⟨c, cs, hsplit, natDigits_all_digits a c (by rw [hsplit]; simp)⟩

theorem parseDigits_natDigits (q : Nat) (rest : List Char)
    (hb : digitBoundary rest = true) :
    parseDigits 0 0 (natDigits q ++ rest) = (q, (natDigits q).length, rest) := by
  rw [parseDigits_spec (natDigits q) 0 0 rest (natDigits_all_digits q) hb,
    valFrom_natDigits]
  simp

/-- The padded fractional digit block of `renderDec` for `e ≥ 1`. -/
theorem parseDigits_padded (fpN e : Nat) (he : 1 ≤ e) (hfp : fpN < 10 ^ e)
    (rest : List Char) (hb : digitBoundary rest = true) :
    parseDigits 0 0
        ((List.replicate (e - (natDigits fpN).length) '0' ++ natDigits fpN) ++ rest) =
      (fpN, e, rest) := by
  have hall : ∀ c ∈ List.replicate (e - (natDigits fpN).length) '0' ++
      natDigits fpN, isDigitChar c = true := by
    intro c hc
    rcases List.mem_append.mp hc with hc | hc
    · rw [List.eq_of_mem_replicate hc]; decide
    · exact natDigits_all_digits _ c hc
  rw [parseDigits_spec _ 0 0 rest hall hb]
  have hlen : (natDigits fpN).length ≤ e := natDigits_length_le e _ he hfp
  have h1 : valFrom 0 (List.replicate (e - (natDigits fpN).length) '0' ++
      natDigits fpN) = fpN := by
    rw [valFrom_append, valFrom_replicate_zero, valFrom_natDigits]
  have h2 : 0 + (List.replicate (e - (natDigits fpN).length) '0' ++
      natDigits fpN).length = e := by
    simp only [List.length_append, List.length_replicate]
    omega
  rw [h1, h2]

theorem headChar_cons (c : Char) (tl : List Char) :
    headChar (c :: tl) = some c := rfl

theorem headDigit_cons (c : Char) (tl : List Char) :
    headDigit (c :: tl) = isDigitChar c := rfl

theorem headDigit_natDigits (q : Nat) (rest : List Char) :
    headDigit (natDigits q ++ rest) = true := by
  obtain ⟨c0, cs0, hnd, hc0⟩ := natDigits_head q
  rw [hnd, List.cons_append, headDigit_cons]
  exact hc0

theorem parseUnsigned_int (q : Nat) (rest : List Char)
    (hb : numBoundary rest = true) :
    parseUnsignedNumber (natDigits q ++ rest) = some ((q, 0), rest) := by
  unfold parseUnsignedNumber
  rw [if_pos (headDigit_natDigits q rest)]
  simp only [parseDigits_natDigits q rest (numBoundary_digitBoundary rest hb)]
  rw [if_neg (numBoundary_not_dot rest hb)]

theorem parseUnsigned_frac (ip fpN e : Nat) (he : 1 ≤ e) (hfp : fpN < 10 ^ e)
    (rest : List Char) (hb : numBoundary rest = true) :
    parseUnsignedNumber
        (natDigits ip ++
          '.' :: (List.replicate (e - (natDigits fpN).length) '0' ++
            (natDigits fpN ++ rest))) =
      some ((ip * 10 ^ e + fpN, e), rest) := by
  have hfrac_ne : List.replicate (e - (natDigits fpN).length) '0' ++
      natDigits fpN ≠ [] := by
    simp [natDigits_ne_nil fpN]
  obtain ⟨d0, ds0, hd0⟩ := List.exists_cons_of_ne_nil hfrac_ne
  have hcd0 : isDigitChar d0 = true := by
    have hmem : d0 ∈ List.replicate (e - (natDigits fpN).length) '0' ++
        natDigits fpN := by
      rw [hd0]; simp
    rcases List.mem_append.mp hmem with hc | hc
    · rw [List.eq_of_mem_replicate hc]; decide
    · exact natDigits_all_digits _ d0 hc
  unfold parseUnsignedNumber
  rw [if_pos (headDigit_natDigits ip _)]
  simp only [parseDigits_natDigits ip
    ('.' :: (List.replicate (e - (natDigits fpN).length) '0' ++ (natDigits fpN ++ rest)))
    rfl]
  rw [if_pos (by rw [headChar_cons])]
  simp only [List.tail_cons]
  rw [if_pos (by
    rw [← List.append_assoc, hd0, List.cons_append, headDigit_cons]
    exact hcd0)]
  rw [← List.append_assoc]
  simp only [parseDigits_padded fpN e he hfp rest (numBoundary_digitBoundary rest hb)]

theorem parseNumber_renderDec (m : Int) (e : Nat) (rest : List Char)
    (hb : numBoundary rest = true) :
    parseNumber ((renderDec m e).data ++ rest) = some ((m, e), rest) := by
  by_cases he0 : e = 0
  · subst he0
    unfold renderDec
    rw [if_pos rfl]
    show parseNumber (intDigits m ++ rest) = _
    unfold intDigits parseNumber
    by_cases hm : m < 0
    · rw [if_pos hm, List.cons_append, headChar_cons]
      rw [if_pos rfl, List.tail_cons, parseUnsigned_int m.natAbs rest hb]
      have hm2 : -((m.natAbs : Nat) : Int) = m := by omega
      simp only [Option.map_some']
      rw [hm2]
    · rw [if_neg hm]
      obtain ⟨c0, cs0, hnd, hc0⟩ := natDigits_head m.natAbs
      rw [if_neg (by
        rw [hnd, List.cons_append, headChar_cons]
        simp [isDigitChar_ne_minus c0 hc0])]
      rw [parseUnsigned_int m.natAbs rest hb]
      have hm2 : ((m.natAbs : Nat) : Int) = m := by omega
      simp only [Option.map_some']
      rw [hm2]
  · have he1 : 1 ≤ e := by omega
    have hfp : m.natAbs % 10 ^ e < 10 ^ e := Nat.mod_lt _ (by positivity)
    unfold renderDec
    rw [if_neg he0]
    show parseNumber
        (((if m < 0 then ['-'] else []) ++
          natDigits (m.natAbs / 10 ^ e) ++
            '.' :: (List.replicate (e - (natDigits (m.natAbs % 10 ^ e)).length) '0' ++
              natDigits (m.natAbs % 10 ^ e))) ++ rest) = some ((m, e), rest)
    unfold parseNumber
    by_cases hm : m < 0
    · rw [if_pos hm]
      simp only [List.cons_append, List.append_assoc, List.singleton_append,
        List.nil_append]
      rw [headChar_cons, if_pos rfl, List.tail_cons]
      rw [parseUnsigned_frac (m.natAbs / 10 ^ e) (m.natAbs % 10 ^ e) e he1 hfp rest hb]
      have h3 : m.natAbs / 10 ^ e * 10 ^ e + m.natAbs % 10 ^ e = m.natAbs := by
        rw [Nat.mul_comm]
        exact Nat.div_add_mod m.natAbs (10 ^ e)
      have hm2 : -((m.natAbs / 10 ^ e * 10 ^ e + m.natAbs % 10 ^ e : Nat) : Int) = m := by
        rw [h3]
        omega
      simp only [Option.map_some']
      rw [hm2]
    · rw [if_neg hm]
      simp only [List.nil_append, List.append_assoc, List.cons_append]
      obtain ⟨c0, cs0, hnd, hc0⟩ := natDigits_head (m.natAbs / 10 ^ e)
      rw [if_neg (by
        rw [hnd, List.cons_append, headChar_cons]
        simp [isDigitChar_ne_minus c0 hc0])]
      rw [parseUnsigned_frac (m.natAbs / 10 ^ e) (m.natAbs % 10 ^ e) e he1 hfp rest hb]
      have h3 : m.natAbs / 10 ^ e * 10 ^ e + m.natAbs % 10 ^ e = m.natAbs := by
        rw [Nat.mul_comm]
        exact Nat.div_add_mod m.natAbs (10 ^ e)
      have hm2 : ((m.natAbs / 10 ^ e * 10 ^ e + m.natAbs % 10 ^ e : Nat) : Int) = m := by
        rw [h3]
        omega
      simp only [Option.map_some']
      rw [hm2]

/-! ## String literals round-trip -/

theorem charOfNat_toNat (c : Char) : Char.ofNat c.toNat = c := by
  have h : c.toNat.isValidChar := c.valid
  unfold Char.ofNat
  rw [dif_pos h]
  rfl

theorem parseStringBody_other (c : Char) (xs : List Char)
    (h1 : c ≠ '"') (h2 : c ≠ '\\') :
    parseStringBody (c :: xs) =
      (parseStringBody xs).map fun p => (c :: p.1, p.2) := by
  rw [parseStringBody.eq_def]
  split <;> simp_all

theorem parseStringBody_unicode (a b c' d : Char) (va vb vc vd : Nat)
    (xs : List Char) (ha : hexVal a = some va) (hb : hexVal b = some vb)
    (hc : hexVal c' = some vc) (hd : hexVal d = some vd) :
    parseStringBody ('\\' :: 'u' :: a :: b :: c' :: d :: xs) =
      (parseStringBody xs).map fun p =>
        (Char.ofNat (((va * 16 + vb) * 16 + vc) * 16 + vd) :: p.1, p.2) := by
  have step : parseStringBody ('\\' :: 'u' :: a :: b :: c' :: d :: xs) =
      (match hexVal a, hexVal b, hexVal c', hexVal d with
       | some w, some x, some y, some z =>
         (parseStringBody xs).map fun p =>
           (Char.ofNat (((w * 16 + x) * 16 + y) * 16 + z) :: p.1, p.2)
       | _, _, _, _ => none) := rfl
  rw [step, ha, hb, hc, hd]

theorem parseStringBody_simple (e r : Char) (xs : List Char)
    (hu : unescapeChar e = some r) (hne : e ≠ 'u') :
    parseStringBody ('\\' :: e :: xs) =
      (parseStringBody xs).map fun p => (r :: p.1, p.2) := by
  rw [parseStringBody.eq_def]
  split
  · rename_i heq
    simp at heq
  · rename_i heq
    simp at heq
  · rename_i x e2 tl2 heq
    injection heq with hc htl
    injection htl with he hxs
    subst he hxs
    rw [if_neg hne, hu]
  · rename_i x c2 tl2 hne1 hne2 heq
    injection heq with hc htl
    exact absurd htl.symm (hne2 e xs hc.symm)

theorem escapeChar_spec (c : Char) :
    (∃ e, escapeChar c = ['\\', e] ∧ e ≠ 'u' ∧ unescapeChar e = some c) ∨
    (∃ a b c' d va vb vc vd, escapeChar c = ['\\', 'u', a, b, c', d] ∧
      hexVal a = some va ∧ hexVal b = some vb ∧ hexVal c' = some vc ∧
      hexVal d = some vd ∧
      Char.ofNat (((va * 16 + vb) * 16 + vc) * 16 + vd) = c) ∨
    (escapeChar c = [c] ∧ c ≠ '"' ∧ c ≠ '\\') := by
  unfold escapeChar
  by_cases h1 : c = '"'
  · simp only [if_pos h1]
    exact Or.inl ⟨'"', rfl, by decide, by rw [h1]; decide⟩
  simp only [if_neg h1]
  by_cases h2 : c = '\\'
  · simp only [if_pos h2]
    exact Or.inl ⟨'\\', rfl, by decide, by rw [h2]; decide⟩
  simp only [if_neg h2]
  by_cases h3 : c = '\n'
  · simp only [if_pos h3]
    exact Or.inl ⟨'n', rfl, by decide, by rw [h3]; decide⟩
  simp only [if_neg h3]
  by_cases h4 : c = '\r'
  · simp only [if_pos h4]
    exact Or.inl ⟨'r', rfl, by decide, by rw [h4]; decide⟩
  simp only [if_neg h4]
  by_cases h5 : c = '\t'
  · simp only [if_pos h5]
    exact Or.inl ⟨'t', rfl, by decide, by rw [h5]; decide⟩
  simp only [if_neg h5]
  by_cases h6 : c.toNat < 32
  · simp only [if_pos h6]
    refine Or.inr (Or.inl ⟨'0', '0', hexDigit (c.toNat / 16), hexDigit (c.toNat % 16),
      0, 0, c.toNat / 16, c.toNat % 16, rfl, rfl, rfl,
      hexVal_hexDigit _ (by omega), hexVal_hexDigit _ (by omega), ?_⟩)
    rw [show ((0 * 16 + 0) * 16 + c.toNat / 16) * 16 + c.toNat % 16 = c.toNat by omega,
      charOfNat_toNat]
  simp only [if_neg h6]
  by_cases h7 : c = '<'
  · simp only [if_pos h7]
    exact Or.inr (Or.inl ⟨'0', '0', '3', 'c', 0, 0, 3, 12, rfl, rfl, rfl, rfl, rfl,
      by rw [h7]⟩)
  simp only [if_neg h7]
  by_cases h8 : c = '>'
  · simp only [if_pos h8]
    exact Or.inr (Or.inl ⟨'0', '0', '3', 'e', 0, 0, 3, 14, rfl, rfl, rfl, rfl, rfl,
      by rw [h8]⟩)
  simp only [if_neg h8]
  by_cases h9 : c = '&'
  · simp only [if_pos h9]
    exact Or.inr (Or.inl ⟨'0', '0', '2', '6', 0, 0, 2, 6, rfl, rfl, rfl, rfl, rfl,
      by rw [h9]⟩)
  simp only [if_neg h9]
  by_cases h10 : c.toNat = 8232
  · simp only [if_pos h10]
    refine Or.inr (Or.inl ⟨'2', '0', '2', '8', 2, 0, 2, 8, rfl, rfl, rfl, rfl, rfl, ?_⟩)
    rw [show ((2 * 16 + 0) * 16 + 2) * 16 + 8 = c.toNat by omega, charOfNat_toNat]
  simp only [if_neg h10]
  by_cases h11 : c.toNat = 8233
  · simp only [if_pos h11]
    refine Or.inr (Or.inl ⟨'2', '0', '2', '9', 2, 0, 2, 9, rfl, rfl, rfl, rfl, rfl, ?_⟩)
    rw [show ((2 * 16 + 0) * 16 + 2) * 16 + 9 = c.toNat by omega, charOfNat_toNat]
  simp only [if_neg h11]
  exact Or.inr (Or.inr ⟨by trivial, h1, h2⟩)

theorem parseStringBody_escape (s : List Char) :
    ∀ rest : List Char, parseStringBody (escapeList s ++ '"' :: rest) = some (s, rest) := by
  induction s with
  | nil => intro rest; rfl
  | cons c tl ih =>
    intro rest
    rw [show escapeList (c :: tl) = escapeChar c ++ escapeList tl from rfl,
      List.append_assoc]
    rcases escapeChar_spec c with ⟨e, he, hne, hu⟩ |
      ⟨a, b, c', d, va, vb, vc, vd, he, ha, hb, hc, hd, hofn⟩ | ⟨he, h1, h2⟩
    · rw [he, List.cons_append, List.cons_append, List.nil_append,
        parseStringBody_simple e c _ hu hne, ih]
      rfl
    · rw [he]
      simp only [List.cons_append, List.nil_append]
      rw [parseStringBody_unicode a b c' d va vb vc vd _ ha hb hc hd, ih, hofn]
      rfl
    · rw [he, List.cons_append, List.nil_append,
        parseStringBody_other c _ h1 h2, ih]
      rfl

/-! ## Whitespace and head-character facts -/

theorem skipWs_cons_not (c : Char) (tl : List Char) (h : isWsChar c = false) :
    skipWs (c :: tl) = c :: tl := by
  have h' : ¬(c = ' ' ∨ c = '\n' ∨ c = '\t' ∨ c = '\r') := of_decide_eq_false h
  rw [skipWs, if_neg h']

theorem skipWs_append_ws : ∀ (ws : List Char), (∀ c ∈ ws, isWsChar c = true) →
    ∀ s, skipWs (ws ++ s) = skipWs s := by
  intro ws
  induction ws with
  | nil => intro _ s; rfl
  | cons c tl ih =>
    intro h s
    have hc : c = ' ' ∨ c = '\n' ∨ c = '\t' ∨ c = '\r' :=
      of_decide_eq_true (h c (by simp))
    rw [List.cons_append, skipWs, if_pos hc]
    exact ih (fun g hg => h g (by simp [hg])) s

theorem indentStr_ws (d : Nat) : ∀ c ∈ indentStr d, isWsChar c = true := by
  intro c hc
  rw [List.eq_of_mem_replicate hc]
  decide

theorem numHead_not_ws (c : Char) (h : c = '-' ∨ isDigitChar c = true) :
    isWsChar c = false := by
  rcases h with rfl | h
  · decide
  · exact isDigitChar_not_ws c h

theorem numHead_ne_rbracket (c : Char) (h : c = '-' ∨ isDigitChar c = true) :
    c ≠ ']' := by
  rcases h with rfl | h
  · decide
  · exact isDigitChar_ne_rbracket c h

theorem numHead_ne_rbrace (c : Char) (h : c = '-' ∨ isDigitChar c = true) :
    c ≠ rbrace := by
  rcases h with rfl | h
  · decide
  · exact isDigitChar_ne_rbrace c h

theorem intDigits_head (m : Int) :
    ∃ c cs, intDigits m = c :: cs ∧ (c = '-' ∨ isDigitChar c = true) := by
  unfold intDigits
  by_cases hm : m < 0
  · rw [if_pos hm]
    exact ⟨'-', _, rfl, Or.inl rfl⟩
  · rw [if_neg hm]
    obtain ⟨c0, cs0, hnd, hc0⟩ := natDigits_head m.natAbs
    exact ⟨c0, cs0, hnd, Or.inr hc0⟩

theorem renderDec_head (m : Int) (e : Nat) :
    ∃ c cs, (renderDec m e).data = c :: cs ∧ (c = '-' ∨ isDigitChar c = true) := by
  unfold renderDec
  by_cases he : e = 0
  · rw [if_pos he]
    exact intDigits_head m
  · rw [if_neg he]
    show ∃ c cs, ((if m < 0 then ['-'] else []) ++
      natDigits (m.natAbs / 10 ^ e) ++ '.' :: _) = c :: cs ∧ _
    by_cases hm : m < 0
    · rw [if_pos hm]
      simp only [List.cons_append, List.nil_append]
      exact ⟨'-', _, rfl, Or.inl rfl⟩
    · rw [if_neg hm, List.nil_append]
      obtain ⟨c0, cs0, hnd, hc0⟩ := natDigits_head (m.natAbs / 10 ^ e)
      rw [hnd, List.cons_append]
      exact ⟨c0, _, rfl, Or.inr hc0⟩

theorem renderVal_head (d : Nat) (v : JVal) :
    ∃ c cs, renderVal d v = c :: cs ∧ isWsChar c = false ∧ c ≠ ']' ∧ c ≠ rbrace := by
  cases v with
  | vstr s => exact ⟨'"', _, rfl, by decide, by decide, by decide⟩
  | vnum m e =>
    obtain ⟨c, cs, hd, hc⟩ := renderDec_head m e
    exact ⟨c, cs, hd, numHead_not_ws c hc, numHead_ne_rbracket c hc,
      numHead_ne_rbrace c hc⟩
  | vfloat32 m e =>
    obtain ⟨c, cs, hd, hc⟩ := renderDec_head m e
    exact ⟨c, cs, hd, numHead_not_ws c hc, numHead_ne_rbracket c hc,
      numHead_ne_rbrace c hc⟩
  | vint n =>
    obtain ⟨c, cs, hd, hc⟩ := intDigits_head n
    exact ⟨c, cs, hd, numHead_not_ws c hc, numHead_ne_rbracket c hc,
      numHead_ne_rbrace c hc⟩
  | vint32 n =>
    obtain ⟨c, cs, hd, hc⟩ := intDigits_head n
    exact ⟨c, cs, hd, numHead_not_ws c hc, numHead_ne_rbracket c hc,
      numHead_ne_rbrace c hc⟩
  | vint64 n =>
    obtain ⟨c, cs, hd, hc⟩ := intDigits_head n
    exact ⟨c, cs, hd, numHead_not_ws c hc, numHead_ne_rbracket c hc,
      numHead_ne_rbrace c hc⟩
  | vbool b =>
    cases b <;> exact ⟨_, _, rfl, by decide, by decide, by decide⟩
  | vnull => exact ⟨'n', _, rfl, by decide, by decide, by decide⟩
  | varr xs =>
    cases xs with
    | nil => exact ⟨'[', _, rfl, by decide, by decide, by decide⟩
    | cons hd tl => exact ⟨'[', _, rfl, by decide, by decide, by decide⟩
  | vobj fs =>
    cases fs with
    | nil => exact ⟨lbrace, _, rfl, by decide, by decide, by decide⟩
    | cons k v tl => exact ⟨lbrace, _, rfl, by decide, by decide, by decide⟩

theorem skipWs_renderVal (d : Nat) (v : JVal) (rest : List Char) :
    skipWs (renderVal d v ++ rest) = renderVal d v ++ rest := by
  obtain ⟨c, cs, hr, hws, -, -⟩ := renderVal_head d v
  rw [hr, List.cons_append, skipWs_cons_not _ _ hws, ← List.cons_append, ← hr]

/-! ## Value-level round trip -/

theorem skipWs_cons_ws (c : Char) (tl : List Char) (h : isWsChar c = true) :
    skipWs (c :: tl) = skipWs tl := by
  rw [skipWs, if_pos (of_decide_eq_true h)]

theorem jsize_varr (xs : JArr) : jsize (.varr xs) = 1 + jsizeArr xs := rfl

theorem jsize_vobj (fs : JObj) : jsize (.vobj fs) = 1 + jsizeObj fs := rfl

theorem jsizeArr_cons (v : JVal) (tl : JArr) :
    jsizeArr (.cons v tl) = 1 + jsize v + jsizeArr tl := rfl

theorem jsizeObj_cons (k : String) (v : JVal) (tl : JObj) :
    jsizeObj (.cons k v tl) = 1 + jsize v + jsizeObj tl := rfl

theorem arrTailText_numBoundary (d : Nat) (tl : JArr) (rest : List Char) :
    numBoundary (arrTailText d tl rest) = true := by
  cases tl <;> rfl

theorem objTailText_numBoundary (d : Nat) (tl : JObj) (rest : List Char) :
    numBoundary (objTailText d tl rest) = true := by
  cases tl <;> rfl

theorem renderArrItems_flatten (d : Nat) :
    ∀ (hd : JVal) (tl : JArr) (rest : List Char),
    renderArrItems d (JArr.cons hd tl) ++ ('\n' :: (indentStr d ++ (']' :: rest))) =
      indentStr (d + 1) ++ (renderVal (d + 1) hd ++ arrTailText d tl rest)
  | hd, .nil, rest => by
    rw [renderArrItems, arrTailText, List.append_assoc]
  | hd, .cons h2 t2, rest => by
    rw [renderArrItems, arrTailText, ← renderArrItems_flatten d h2 t2 rest]
    simp only [List.append_assoc, List.cons_append]

theorem renderObjItems_flatten (d : Nat) :
    ∀ (k : String) (v : JVal) (tl : JObj) (rest : List Char),
    renderObjItems d (JObj.cons k v tl) ++ ('\n' :: (indentStr d ++ (rbrace :: rest))) =
      indentStr (d + 1) ++ (renderString k ++
        (':' :: (' ' :: (renderVal (d + 1) v ++ objTailText d tl rest))))
  | k, v, .nil, rest => by
    rw [renderObjItems, objTailText]
    simp only [List.append_assoc, List.cons_append]
  | k, v, .cons k2 v2 t2, rest => by
    rw [renderObjItems, objTailText, ← renderObjItems_flatten d k2 v2 t2 rest]
    simp only [List.append_assoc, List.cons_append]

theorem numHead_ne_lit (c : Char) (hd : c = '-' ∨ isDigitChar c = true) :
    c ≠ '"' ∧ c ≠ 'n' ∧ c ≠ 't' ∧ c ≠ 'f' ∧ c ≠ '[' ∧ c ≠ lbrace := by
  rcases hd with rfl | h
  · exact ⟨by decide, by decide, by decide, by decide, by decide, by decide⟩
  · obtain ⟨h1, h2⟩ := isDigitChar_toNat c h
    refine ⟨char_toNat_ne ?_, char_toNat_ne ?_, char_toNat_ne ?_, char_toNat_ne ?_,
      char_toNat_ne ?_, char_toNat_ne ?_⟩
    · rw [show ('"').toNat = 34 from rfl]; omega
    · rw [show ('n').toNat = 110 from rfl]; omega
    · rw [show ('t').toNat = 116 from rfl]; omega
    · rw [show ('f').toNat = 102 from rfl]; omega
    · rw [show ('[').toNat = 91 from rfl]; omega
    · rw [show lbrace.toNat = 123 from rfl]; omega

theorem parseVal_number_head (fuel : Nat) (c : Char) (tl : List Char)
    (hd : c = '-' ∨ isDigitChar c = true) :
    parseVal (fuel + 1) (c :: tl) =
      (parseNumber (c :: tl)).map fun p => (JVal.vnum p.1.1 p.1.2, p.2) := by
  rw [parseVal, skipWs_cons_not c tl (numHead_not_ws c hd)]
  split
  · rename_i x tl2 heq
    injection heq with hc htl
    exact absurd hc (numHead_ne_lit c hd).1
  · rename_i x tl2 heq
    injection heq with hc htl
    exact absurd hc (numHead_ne_lit c hd).2.1
  · rename_i x tl2 heq
    injection heq with hc htl
    exact absurd hc (numHead_ne_lit c hd).2.2.1
  · rename_i x tl2 heq
    injection heq with hc htl
    exact absurd hc (numHead_ne_lit c hd).2.2.2.1
  · rename_i x tl2 heq
    injection heq with hc htl
    exact absurd hc (numHead_ne_lit c hd).2.2.2.2.1
  · rename_i x c2 tl2 hn1 hn2 hn3 hn4 hn5 heq
    injection heq with hc htl
    subst hc htl
    rw [if_neg (numHead_ne_lit c hd).2.2.2.2.2, if_pos hd]
  · rename_i x heq
    exact absurd heq (by simp)

theorem parseVal_ws_lead (fuel : Nat) (lead s : List Char)
    (h : ∀ c ∈ lead, isWsChar c = true) :
    parseVal (fuel + 1) (lead ++ s) = parseVal (fuel + 1) s := by
  rw [parseVal, parseVal, skipWs_append_ws lead h]

/-- Unfolding of the parser on an opening-brace head. -/
theorem parseVal_obj_head (fuel : Nat) (tl : List Char) :
    parseVal (fuel + 1) (lbrace :: tl) =
      (if headChar (skipWs tl) = some rbrace then some (JVal.vobj .nil, (skipWs tl).tail)
       else (parseObjItems fuel (skipWs tl)).map fun p => (JVal.vobj p.1, p.2)) := by
  rfl

mutual
theorem parse_render_val :
    ∀ (fuel : Nat) (v : JVal) (d : Nat) (lead rest : List Char),
    jsize v < fuel → decodedB v = true →
    (∀ c ∈ lead, isWsChar c = true) → numBoundary rest = true →
    parseVal fuel (lead ++ (renderVal d v ++ rest)) = some (v, rest)
  | 0, v, d, lead, rest => fun hs _ _ _ => absurd hs (Nat.not_lt_zero _)
  | fuel + 1, v, d, lead, rest => fun hs hdec hlead hb => by
    rw [parseVal_ws_lead fuel _ _ hlead]
    cases v with
    | vstr s =>
      have hflat : renderVal d (.vstr s) ++ rest =
          '"' :: (escapeList s.data ++ ('"' :: rest)) := by
        rw [show renderVal d (.vstr s) = '"' :: (escapeList s.data ++ ['"']) from rfl]
        simp only [List.cons_append, List.append_assoc, List.singleton_append,
          List.nil_append]
      rw [hflat, parseVal, skipWs_cons_not '"' _ (by decide)]
      simp only [parseStringBody_escape s.data rest]
      rfl
    | vnum m e =>
      obtain ⟨c, cs, hdc, hnum⟩ := renderDec_head m e
      rw [show renderVal d (.vnum m e) = (renderDec m e).data from rfl, hdc,
        List.cons_append, parseVal_number_head fuel c _ hnum, ← List.cons_append,
        ← hdc, parseNumber_renderDec m e rest hb]
      rfl
    | vfloat32 m e => exact Bool.noConfusion (show false = true from hdec)
    | vint n => exact Bool.noConfusion (show false = true from hdec)
    | vint32 n => exact Bool.noConfusion (show false = true from hdec)
    | vint64 n => exact Bool.noConfusion (show false = true from hdec)
    | vbool b =>
      cases b with
      | true =>
        rw [show renderVal d (.vbool true) ++ rest =
          't' :: 'r' :: 'u' :: 'e' :: rest from rfl, parseVal,
          skipWs_cons_not 't' _ (by decide)]
        rfl
      | false =>
        rw [show renderVal d (.vbool false) ++ rest =
          'f' :: 'a' :: 'l' :: 's' :: 'e' :: rest from rfl, parseVal,
          skipWs_cons_not 'f' _ (by decide)]
        rfl
    | vnull =>
      rw [show renderVal d .vnull ++ rest = 'n' :: 'u' :: 'l' :: 'l' :: rest from rfl,
        parseVal, skipWs_cons_not 'n' _ (by decide)]
      rfl
    | varr xs =>
      cases xs with
      | nil =>
        rw [show renderVal d (.varr .nil) ++ rest = '[' :: (']' :: rest) from rfl,
          parseVal, skipWs_cons_not '[' _ (by decide)]
        rfl
      | cons hd tl =>
        have h2 : (decodedB hd && decodedArrB tl) = true := hdec
        simp only [Bool.and_eq_true] at h2
        have hsz : 1 + jsize hd + jsizeArr tl < fuel := by
          rw [jsize_varr, jsizeArr_cons] at hs
          omega
        have hflat : renderVal d (.varr (.cons hd tl)) ++ rest =
            '[' :: ('\n' :: (indentStr (d + 1) ++
              (renderVal (d + 1) hd ++ arrTailText d tl rest))) := by
          rw [show renderVal d (.varr (.cons hd tl)) =
            '[' :: '\n' :: (renderArrItems d (.cons hd tl) ++
              '\n' :: (indentStr d ++ [']'])) from rfl]
          simp only [List.cons_append, List.append_assoc, List.singleton_append,
            List.nil_append]
          rw [renderArrItems_flatten d hd tl rest]
        rw [hflat, parseVal, skipWs_cons_not '[' _ (by decide)]
        have hskip : skipWs ('\n' :: (indentStr (d + 1) ++
            (renderVal (d + 1) hd ++ arrTailText d tl rest))) =
            renderVal (d + 1) hd ++ arrTailText d tl rest := by
          rw [skipWs_cons_ws '\n' _ (by decide),
            skipWs_append_ws _ (indentStr_ws (d + 1)), skipWs_renderVal]
        simp only [hskip]
        obtain ⟨ch, chs, hch, -, hne, -⟩ := renderVal_head (d + 1) hd
        rw [if_neg (by
          rw [hch, List.cons_append, headChar_cons]
          simp [hne])]
        have harr := parse_render_arr fuel hd tl d [] rest hsz h2.1 h2.2
          (by simp) hb
        rw [List.nil_append] at harr
        simp only [harr]
        rfl
    | vobj fs =>
      cases fs with
      | nil =>
        rw [show renderVal d (.vobj .nil) ++ rest = lbrace :: (rbrace :: rest) from rfl,
          parseVal, skipWs_cons_not lbrace _ (by decide)]
        rfl
      | cons k v0 tl =>
        have h2 : (decodedB v0 && decodedObjB tl) = true := hdec
        simp only [Bool.and_eq_true] at h2
        have hsz : 1 + jsize v0 + jsizeObj tl < fuel := by
          rw [jsize_vobj, jsizeObj_cons] at hs
          omega
        have hflat : renderVal d (.vobj (.cons k v0 tl)) ++ rest =
            lbrace :: ('\n' :: (indentStr (d + 1) ++ (renderString k ++
              (':' :: (' ' :: (renderVal (d + 1) v0 ++ objTailText d tl rest)))))) := by
          rw [show renderVal d (.vobj (.cons k v0 tl)) =
            lbrace :: '\n' :: (renderObjItems d (.cons k v0 tl) ++
              '\n' :: (indentStr d ++ [rbrace])) from rfl]
          simp only [List.cons_append, List.append_assoc, List.singleton_append,
            List.nil_append]
          rw [renderObjItems_flatten d k v0 tl rest]
        rw [hflat, parseVal_obj_head fuel _]
        have hskip : skipWs ('\n' :: (indentStr (d + 1) ++ (renderString k ++
            (':' :: (' ' :: (renderVal (d + 1) v0 ++ objTailText d tl rest)))))) =
            renderString k ++
              (':' :: (' ' :: (renderVal (d + 1) v0 ++ objTailText d tl rest))) := by
          rw [skipWs_cons_ws '\n' _ (by decide),
            skipWs_append_ws _ (indentStr_ws (d + 1)),
            show renderString k = '"' :: (escapeList k.data ++ ['"']) from rfl,
            List.cons_append, skipWs_cons_not '"' _ (by decide)]
        rw [hskip]
        rw [if_neg (by
          rw [show renderString k = '"' :: (escapeList k.data ++ ['"']) from rfl,
            List.cons_append, headChar_cons]
          simp
          decide)]
        have hobj := parse_render_obj fuel k v0 tl d [] rest hsz h2.1 h2.2
          (by simp) hb
        rw [List.nil_append] at hobj
        simp only [hobj]
        rfl

theorem parse_render_arr :
    ∀ (fuel : Nat) (hd : JVal) (tl : JArr) (d : Nat) (lead rest : List Char),
    1 + jsize hd + jsizeArr tl < fuel → decodedB hd = true → decodedArrB tl = true →
    (∀ c ∈ lead, isWsChar c = true) → numBoundary rest = true →
    parseArrItems fuel (lead ++ (renderVal (d + 1) hd ++ arrTailText d tl rest)) =
      some (JArr.cons hd tl, rest)
  | 0, hd, tl, d, lead, rest => fun hs _ _ _ _ => absurd hs (Nat.not_lt_zero _)
  | fuel + 1, hd, tl, d, lead, rest => fun hs hd1 hd2 hlead hb => by
    rw [parseArrItems]
    have hval := parse_render_val fuel hd (d + 1) lead (arrTailText d tl rest)
      (by omega) hd1 hlead (arrTailText_numBoundary d tl rest)
    simp only [hval]
    cases tl with
    | nil =>
      have hskip : skipWs (arrTailText d .nil rest) = ']' :: rest := by
        rw [show arrTailText d .nil rest =
          '\n' :: (indentStr d ++ (']' :: rest)) from rfl,
          skipWs_cons_ws '\n' _ (by decide), skipWs_append_ws _ (indentStr_ws d),
          skipWs_cons_not ']' _ (by decide)]
      simp only [hskip]
    | cons h2 t2 =>
      have h3 : (decodedB h2 && decodedArrB t2) = true := hd2
      simp only [Bool.and_eq_true] at h3
      have hsz : 1 + jsize h2 + jsizeArr t2 < fuel := by
        rw [jsizeArr_cons] at hs
        omega
      have hskip : skipWs (arrTailText d (.cons h2 t2) rest) =
          ',' :: ('\n' :: (indentStr (d + 1) ++
            (renderVal (d + 1) h2 ++ arrTailText d t2 rest))) := by
        rw [show arrTailText d (.cons h2 t2) rest =
          ',' :: ('\n' :: (indentStr (d + 1) ++
            (renderVal (d + 1) h2 ++ arrTailText d t2 rest))) from rfl,
          skipWs_cons_not ',' _ (by decide)]
      simp only [hskip]
      have hrec := parse_render_arr fuel h2 t2 d ('\n' :: indentStr (d + 1)) rest
        hsz h3.1 h3.2
        (by
          intro c hc
          rcases List.mem_cons.mp hc with rfl | hc
          · decide
          · exact indentStr_ws (d + 1) c hc)
        hb
      rw [List.cons_append] at hrec
      simp only [hrec]
      rfl

theorem parse_render_obj :
    ∀ (fuel : Nat) (k : String) (v : JVal) (tl : JObj) (d : Nat) (lead rest : List Char),
    1 + jsize v + jsizeObj tl < fuel → decodedB v = true → decodedObjB tl = true →
    (∀ c ∈ lead, isWsChar c = true) → numBoundary rest = true →
    parseObjItems fuel (lead ++ (renderString k ++
        (':' :: (' ' :: (renderVal (d + 1) v ++ objTailText d tl rest))))) =
      some (JObj.cons k v tl, rest)
  | 0, k, v, tl, d, lead, rest => fun hs _ _ _ _ => absurd hs (Nat.not_lt_zero _)
  | fuel + 1, k, v, tl, d, lead, rest => fun hs hdv hdtl hlead hb => by
    rw [parseObjItems]
    have hskip0 : skipWs (lead ++ (renderString k ++
        (':' :: (' ' :: (renderVal (d + 1) v ++ objTailText d tl rest))))) =
        '"' :: (escapeList k.data ++
          ('"' :: (':' :: (' ' :: (renderVal (d + 1) v ++ objTailText d tl rest))))) := by
      rw [skipWs_append_ws lead hlead,
        show renderString k = '"' :: (escapeList k.data ++ ['"']) from rfl]
      simp only [List.cons_append, List.append_assoc, List.singleton_append,
        List.nil_append]
      rw [skipWs_cons_not '"' _ (by decide)]
    simp only [hskip0]
    simp only [parseStringBody_escape k.data
      (':' :: (' ' :: (renderVal (d + 1) v ++ objTailText d tl rest)))]
    simp only [skipWs_cons_not ':' _ (by decide)]
    have hval := parse_render_val fuel v (d + 1) [' '] (objTailText d tl rest)
      (by omega) hdv (by decide) (objTailText_numBoundary d tl rest)
    rw [List.singleton_append] at hval
    simp only [hval]
    cases tl with
    | nil =>
      have hskip : skipWs (objTailText d .nil rest) = rbrace :: rest := by
        rw [show objTailText d .nil rest =
          '\n' :: (indentStr d ++ (rbrace :: rest)) from rfl,
          skipWs_cons_ws '\n' _ (by decide), skipWs_append_ws _ (indentStr_ws d),
          skipWs_cons_not rbrace _ (by decide)]
      simp only [hskip]
      rfl
    | cons k2 v2 t2 =>
      have h3 : (decodedB v2 && decodedObjB t2) = true := hdtl
      simp only [Bool.and_eq_true] at h3
      have hsz : 1 + jsize v2 + jsizeObj t2 < fuel := by
        rw [jsizeObj_cons] at hs
        omega
      have hskip : skipWs (objTailText d (.cons k2 v2 t2) rest) =
          ',' :: ('\n' :: (indentStr (d + 1) ++ (renderString k2 ++
            (':' :: (' ' :: (renderVal (d + 1) v2 ++ objTailText d t2 rest)))))) := by
        rw [show objTailText d (.cons k2 v2 t2) rest =
          ',' :: ('\n' :: (indentStr (d + 1) ++ (renderString k2 ++
            (':' :: (' ' :: (renderVal (d + 1) v2 ++ objTailText d t2 rest)))))) from rfl,
          skipWs_cons_not ',' _ (by decide)]
      simp only [hskip]
      have hrec := parse_render_obj fuel k2 v2 t2 d ('\n' :: indentStr (d + 1)) rest
        hsz h3.1 h3.2
        (by
          intro c hc
          rcases List.mem_cons.mp hc with rfl | hc
          · decide
          · exact indentStr_ws (d + 1) c hc)
        hb
      rw [List.cons_append] at hrec
      simp only [hrec]
      rfl
end

/-! ## File-level Write/Read round trip (array mode) -/

theorem parseVal_arr_head (fuel : Nat) (tl : List Char) :
    parseVal (fuel + 1) ('[' :: tl) =
      (if headChar (skipWs tl) = some ']' then some (JVal.varr .nil, (skipWs tl).tail)
       else (parseArrItems fuel (skipWs tl)).map fun p => (JVal.varr p.1, p.2)) := rfl

theorem commaBlock_fileTail : ∀ (rs : List Record) (r : Record),
    jsonEncode r ++ (commaBlock rs ++ ['\n', ']']) =
      renderVal 0 (.vobj r) ++ fileTail rs
  | [], r => by
    rw [commaBlock, fileTail, jsonEncode, List.nil_append, List.append_assoc]
    rfl
  | r2 :: rest, r => by
    have ih := commaBlock_fileTail rest r2
    rw [commaBlock, fileTail, ← ih, jsonEncode, jsonEncode]
    simp only [List.append_assoc, List.cons_append, List.singleton_append,
      List.nil_append]

mutual
theorem jsize_le_render : ∀ (d : Nat) (v : JVal), jsize v ≤ (renderVal d v).length
  | d, .vstr s => by
    show 1 ≤ ('"' :: (escapeList s.data ++ ['"'])).length
    rw [List.length_cons]
    exact Nat.succ_le_succ (Nat.zero_le _)
  | d, .vnum m e => by
    obtain ⟨c, cs, hd, -⟩ := renderDec_head m e
    show 1 ≤ ((renderDec m e).data).length
    rw [hd, List.length_cons]
    exact Nat.succ_le_succ (Nat.zero_le _)
  | d, .vfloat32 m e => by
    obtain ⟨c, cs, hd, -⟩ := renderDec_head m e
    show 1 ≤ ((renderDec m e).data).length
    rw [hd, List.length_cons]
    exact Nat.succ_le_succ (Nat.zero_le _)
  | d, .vint n => by
    obtain ⟨c, cs, hd, -⟩ := intDigits_head n
    show 1 ≤ (intDigits n).length
    rw [hd, List.length_cons]
    exact Nat.succ_le_succ (Nat.zero_le _)
  | d, .vint32 n => by
    obtain ⟨c, cs, hd, -⟩ := intDigits_head n
    show 1 ≤ (intDigits n).length
    rw [hd, List.length_cons]
    exact Nat.succ_le_succ (Nat.zero_le _)
  | d, .vint64 n => by
    obtain ⟨c, cs, hd, -⟩ := intDigits_head n
    show 1 ≤ (intDigits n).length
    rw [hd, List.length_cons]
    exact Nat.succ_le_succ (Nat.zero_le _)
  | d, .vbool true => by
    show (1 : Nat) ≤ 4
    decide
  | d, .vbool false => by
    show (1 : Nat) ≤ 5
    decide
  | d, .vnull => by
    show (1 : Nat) ≤ 4
    decide
  | d, .varr .nil => by
    show (1 : Nat) ≤ 2
    decide
  | d, .varr (.cons hd tl) => by
    have hi := jsizeArr_le_items d hd tl
    rw [show renderVal d (.varr (.cons hd tl)) =
        '[' :: '\n' :: (renderArrItems d (.cons hd tl) ++
          '\n' :: (indentStr d ++ [']'])) from rfl,
      jsize_varr]
    simp only [List.length_cons, List.length_append]
    omega
  | d, .vobj .nil => by
    show (1 : Nat) ≤ 2
    decide
  | d, .vobj (.cons k v tl) => by
    have hi := jsizeObj_le_items d k v tl
    rw [show renderVal d (.vobj (.cons k v tl)) =
        lbrace :: '\n' :: (renderObjItems d (.cons k v tl) ++
          '\n' :: (indentStr d ++ [rbrace])) from rfl,
      jsize_vobj]
    simp only [List.length_cons, List.length_append]
    omega
termination_by d v => sizeOf v

theorem jsizeArr_le_items : ∀ (d : Nat) (hd : JVal) (tl : JArr),
    jsizeArr (.cons hd tl) ≤ (renderArrItems d (.cons hd tl)).length
  | d, hd, .nil => by
    have h := jsize_le_render (d + 1) hd
    rw [show renderArrItems d (.cons hd .nil) =
        indentStr (d + 1) ++ renderVal (d + 1) hd from rfl, jsizeArr_cons]
    rw [List.length_append]
    have hind : (indentStr (d + 1)).length = 2 * (d + 1) :=
      List.length_replicate _ _
    show 1 + jsize hd + 0 ≤ _
    omega
  | d, hd, .cons h2 t2 => by
    have h := jsize_le_render (d + 1) hd
    have hi := jsizeArr_le_items d h2 t2
    rw [show renderArrItems d (.cons hd (.cons h2 t2)) =
        indentStr (d + 1) ++ renderVal (d + 1) hd ++
          ',' :: '\n' :: renderArrItems d (.cons h2 t2) from rfl, jsizeArr_cons]
    simp only [List.length_append, List.length_cons]
    omega
termination_by d hd tl => sizeOf (JArr.cons hd tl)

theorem jsizeObj_le_items : ∀ (d : Nat) (k : String) (v : JVal) (tl : JObj),
    jsizeObj (.cons k v tl) ≤ (renderObjItems d (.cons k v tl)).length
  | d, k, v, .nil => by
    have h := jsize_le_render (d + 1) v
    rw [show renderObjItems d (.cons k v .nil) =
        indentStr (d + 1) ++ renderString k ++
          ':' :: ' ' :: renderVal (d + 1) v from rfl, jsizeObj_cons]
    simp only [List.length_append, List.length_cons]
    show 1 + jsize v + 0 ≤ _
    omega
  | d, k, v, .cons k2 v2 t2 => by
    have h := jsize_le_render (d + 1) v
    have hi := jsizeObj_le_items d k2 v2 t2
    rw [show renderObjItems d (.cons k v (.cons k2 v2 t2)) =
        indentStr (d + 1) ++ renderString k ++
          ':' :: ' ' :: renderVal (d + 1) v ++
          ',' :: '\n' :: renderObjItems d (.cons k2 v2 t2) from rfl, jsizeObj_cons]
    simp only [List.length_append, List.length_cons]
    omega
termination_by d k v tl => sizeOf (JObj.cons k v tl)
end

theorem recsSize_le_fileLen : ∀ (rs : List Record) (r : Record),
    recsSize (r :: rs) ≤ (renderVal 0 (.vobj r) ++ fileTail rs).length
  | [], r => by
    have h := jsize_le_render 0 (.vobj r)
    rw [recsSize, recsSize, fileTail]
    simp only [List.length_append, List.length_cons, List.length_nil]
    omega
  | r2 :: rest, r => by
    have h := jsize_le_render 0 (.vobj r)
    have ih := recsSize_le_fileLen rest r2
    rw [recsSize, fileTail]
    simp only [List.length_append, List.length_cons] at ih ⊢
    omega

theorem fileTail_numBoundary : ∀ rs : List Record, numBoundary (fileTail rs) = true
  | [] => rfl
  | _ :: _ => rfl

theorem parse_file_items : ∀ (fuel : Nat) (r : Record) (rs : List Record)
    (lead : List Char),
    recsSize (r :: rs) ≤ fuel → recsDecodedB (r :: rs) = true →
    (∀ c ∈ lead, isWsChar c = true) →
    parseArrItems (fuel + 1) (lead ++ (renderVal 0 (.vobj r) ++ fileTail rs)) =
      some (recordsToJArr (r :: rs), [])
  | 0, r, rs, lead => fun hs _ _ => by
    rw [recsSize] at hs
    omega
  | fuel + 1, r, rs, lead => fun hs hdec hlead => by
    have hjr : jsize (.vobj r) < fuel + 1 := by
      rw [recsSize] at hs
      omega
    have hd2 : (decodedObjB r && recsDecodedB rs) = true := hdec
    simp only [Bool.and_eq_true] at hd2
    rw [parseArrItems]
    have hval := parse_render_val (fuel + 1) (.vobj r) 0 lead (fileTail rs) hjr
      hd2.1 hlead (fileTail_numBoundary rs)
    simp only [hval]
    cases rs with
    | nil => rfl
    | cons r2 rest =>
      have hskip : skipWs (fileTail (r2 :: rest)) =
          ',' :: ('\n' :: (renderVal 0 (.vobj r2) ++ fileTail rest)) := by
        rw [show fileTail (r2 :: rest) =
          '\n' :: ',' :: '\n' :: (renderVal 0 (.vobj r2) ++ fileTail rest) from rfl,
          skipWs_cons_ws '\n' _ (by decide), skipWs_cons_not ',' _ (by decide)]
      simp only [hskip]
      have hsz2 : recsSize (r2 :: rest) ≤ fuel := by
        rw [recsSize] at hs
        omega
      have hrec := parse_file_items fuel r2 rest ['\n'] hsz2 hd2.2
        (by
          intro c hc
          rcases List.mem_singleton.mp hc with rfl
          decide)
      rw [List.singleton_append] at hrec
      simp only [hrec]
      rfl

theorem arrayElems_ok (schema : SchemaConfig) : ∀ (rs : List Record) (i : Nat),
    (∀ x ∈ rs, validateRecord schema x = .ok ()) →
    arrayElemsToRecords schema i (recordsToJArr rs) = .ok rs
  | [], _ => fun _ => rfl
  | r :: rest, i => fun hval => by
    rw [recordsToJArr, arrayElemsToRecords]
    simp only [hval r (by simp)]
    simp only [arrayElems_ok schema rest (i + 1) (fun x hx => hval x (by simp [hx]))]

theorem readJSONArray_writeFile (schema : SchemaConfig) (r : Record)
    (rs : List Record)
    (hdec : recsDecodedB (r :: rs) = true)
    (hval : ∀ x ∈ r :: rs, validateRecord schema x = .ok ()) :
    readJSONArray schema ('[' :: '\n' :: (renderVal 0 (.vobj r) ++ fileTail rs)) =
      .ok (r :: rs) := by
  have hlen : ('[' :: '\n' :: (renderVal 0 (.vobj r) ++ fileTail rs)).length =
      (renderVal 0 (.vobj r) ++ fileTail rs).length + 2 := by
    simp only [List.length_cons]
  have hsz : recsSize (r :: rs) ≤
      2 * ('[' :: '\n' :: (renderVal 0 (.vobj r) ++ fileTail rs)).length := by
    have := recsSize_le_fileLen rs r
    rw [hlen]
    omega
  have hskip : skipWs ('\n' :: (renderVal 0 (.vobj r) ++ fileTail rs)) =
      renderVal 0 (.vobj r) ++ fileTail rs := by
    rw [skipWs_cons_ws '\n' _ (by decide), skipWs_renderVal]
  obtain ⟨c, cs, hr, -, hne, -⟩ := renderVal_head 0 (.vobj r)
  have hparse : parseVal
      (2 * ('[' :: '\n' :: (renderVal 0 (.vobj r) ++ fileTail rs)).length + 2)
      ('[' :: '\n' :: (renderVal 0 (.vobj r) ++ fileTail rs)) =
      some (.varr (recordsToJArr (r :: rs)), []) := by
    rw [show 2 * ('[' :: '\n' :: (renderVal 0 (.vobj r) ++ fileTail rs)).length + 2 =
      (2 * ('[' :: '\n' :: (renderVal 0 (.vobj r) ++ fileTail rs)).length + 1) + 1
      from rfl, parseVal_arr_head, hskip]
    rw [if_neg (by
      rw [hr, List.cons_append, headChar_cons]
      simp [hne])]
    have hitems := parse_file_items
      (2 * ('[' :: '\n' :: (renderVal 0 (.vobj r) ++ fileTail rs)).length) r rs []
      hsz hdec
      (by intro x hx; exact absurd hx (List.not_mem_nil x))
    rw [List.nil_append] at hitems
    rw [hitems]
    rfl
  rw [readJSONArray]
  simp only [hparse]
  exact arrayElems_ok schema (r :: rs) 0 hval

theorem writeLoop_pos (schema : SchemaConfig) : ∀ (rs : List Record)
    (st : WriteState) (i : Nat),
    (∀ x ∈ rs, validateRecord schema x = .ok ()) →
    writeRecordsLoop "array" schema st (i + 1) rs =
      .ok ⟨st.opened, st.out ++ commaBlock rs⟩
  | [], st, i => fun _ => by
    rw [writeRecordsLoop, commaBlock, List.append_nil]
  | r :: rest, st, i => fun hval => by
    rw [writeRecordsLoop]
    simp only [hval r (by simp)]
    rw [if_pos (And.intro trivial (Nat.succ_pos i))]
    rw [writeLoop_pos schema rest _ (i + 1) (fun x hx => hval x (by simp [hx]))]
    rw [commaBlock]
    simp [List.append_assoc]

theorem writeLoop_first (schema : SchemaConfig) (r : Record) (rs : List Record)
    (st : WriteState)
    (hval : ∀ x ∈ r :: rs, validateRecord schema x = .ok ()) :
    writeRecordsLoop "array" schema st 0 (r :: rs) =
      .ok ⟨st.opened, st.out ++ (jsonEncode r ++ commaBlock rs)⟩ := by
  rw [writeRecordsLoop]
  simp only [hval r (by simp)]
  rw [if_neg (by simp)]
  rw [writeLoop_pos schema rs _ 0 (fun x hx => hval x (by simp [hx]))]
  simp [List.append_assoc]

theorem jsonWrite_array_fresh (path : String) (schema : SchemaConfig) (r : Record)
    (rs : List Record)
    (hval : ∀ x ∈ r :: rs, validateRecord schema x = .ok ()) :
    jsonWrite ⟨path, "array", schema⟩ freshWriter (r :: rs) =
      .ok ⟨true, '[' :: '\n' :: (jsonEncode r ++ commaBlock rs)⟩ := by
  show writeRecordsLoop "array" schema ⟨true, ['[', '\n']⟩ 0 (r :: rs) = _
  rw [writeLoop_first schema r rs ⟨true, ['[', '\n']⟩ hval]
  rfl

theorem closedFile_eq (path : String) (schema : SchemaConfig) (r : Record)
    (rs : List Record) :
    jsonClose ⟨path, "array", schema⟩
        ⟨true, '[' :: '\n' :: (jsonEncode r ++ commaBlock rs)⟩ =
      '[' :: '\n' :: (renderVal 0 (.vobj r) ++ fileTail rs) := by
  show ('[' :: '\n' :: (jsonEncode r ++ commaBlock rs)) ++ ['\n', ']'] = _
  rw [List.cons_append, List.cons_append, List.append_assoc, commaBlock_fileTail rs r]

/-- C1: writing a non-empty sequence of well-formed records (decode-normal
values passing schema validation) with one `Write` and one `Close` and
reading the file back yields the same sequence in `array` mode; but in
`lines` mode the claim fails on the code as written: `Write` emits
indented multi-line JSON, and `readJSONLines` then cannot parse its own
output (the record mapping `text` to `"hi"` is written successfully and
read back as an unmarshal error on line 1). -/
theorem claim_C1_write_read_roundtrip :
    (∀ (path : String) (schema : SchemaConfig) (r : Record) (rs : List Record)
        (st : WriteState),
      recsDecodedB (r :: rs) = true →
      (∀ x ∈ r :: rs, validateRecord schema x = .ok ()) →
      jsonWrite ⟨path, "array", schema⟩ freshWriter (r :: rs) = .ok st →
      jsonRead ⟨path, "array", schema⟩
          [jsonClose ⟨path, "array", schema⟩ st] = .ok (r :: rs)) ∧
    (∃ st : WriteState,
      jsonWrite ⟨"out.json", "lines", textSchema⟩ freshWriter [recHi] = .ok st ∧
      jsonRead ⟨"out.json", "lines", textSchema⟩
          [jsonClose ⟨"out.json", "lines", textSchema⟩ st] =
        .error "failed to read file: failed to unmarshal line 1") := by
  constructor
  · intro path schema r rs st hdec hval hw
    rw [jsonWrite_array_fresh path schema r rs hval] at hw
    injection hw with h
    subst h
    rw [closedFile_eq path schema r rs]
    have hrf : readFileContents ⟨path, "array", schema⟩
        ('[' :: '\n' :: (renderVal 0 (.vobj r) ++ fileTail rs)) = .ok (r :: rs) := by
      show readJSONArray schema _ = _
      exact readJSONArray_writeFile schema r rs hdec hval
    show readLoop ⟨path, "array", schema⟩
        ['[' :: '\n' :: (renderVal 0 (.vobj r) ++ fileTail rs)] = .ok (r :: rs)
    rw [readLoop]
    simp only [hrf]
    simp only [show readLoop ⟨path, "array", schema⟩ [] = .ok [] from rfl]
    rw [List.append_nil]
  · exact ⟨⟨true, jsonEncode recHi⟩, rfl, rfl⟩

/-- C7: `Read` over an empty resolved file list is an error naming the
path pattern, never an empty result; an empty array document `[]` in
`array` mode and an empty file in `lines` mode are valid and yield a
zero-length record sequence with no error, for every schema. -/
theorem claim_C7_empty_inputs :
    ∀ (path : String) (m : String) (schema : SchemaConfig),
      jsonRead ⟨path, m, schema⟩ [] =
        .error ("no files found matching pattern: " ++ path) ∧
      jsonRead ⟨path, "array", schema⟩ [['[', ']']] = .ok [] ∧
      jsonRead ⟨path, "lines", schema⟩ [[]] = .ok [] := by
  intro path m schema
  exact ⟨rfl, rfl, rfl⟩

/-- C9: within a single `Write` call in `array` mode, the emitted bytes do
have a leading `[`, a `,` between consecutive records and a `]` appended
at `Close`, and the closed file parses back as the written records; but
the claim's "every sequence of Write calls" fails on the code as written:
the comma logic uses the per-call loop index, so a second `Write` call
emits no separator before its first record and the closed file is not
valid JSON (two one-record calls produce a file `readJSONArray`
rejects). -/
theorem claim_C9_array_framing :
    (∀ (path : String) (schema : SchemaConfig) (r : Record) (rs : List Record),
      recsDecodedB (r :: rs) = true →
      (∀ x ∈ r :: rs, validateRecord schema x = .ok ()) →
      jsonWrite ⟨path, "array", schema⟩ freshWriter (r :: rs) =
        .ok ⟨true, '[' :: '\n' :: (jsonEncode r ++ commaBlock rs)⟩ ∧
      readJSONArray schema
          (jsonClose ⟨path, "array", schema⟩
            ⟨true, '[' :: '\n' :: (jsonEncode r ++ commaBlock rs)⟩) =
        .ok (r :: rs)) ∧
    (∃ st1 st2 : WriteState,
      jsonWrite ⟨"out.json", "array", ⟨[]⟩⟩ freshWriter [JObj.nil] = .ok st1 ∧
      jsonWrite ⟨"out.json", "array", ⟨[]⟩⟩ st1 [JObj.nil] = .ok st2 ∧
      readJSONArray ⟨[]⟩ (jsonClose ⟨"out.json", "array", ⟨[]⟩⟩ st2) =
        .error "failed to decode JSON array") := by
  constructor
  · intro path schema r rs hdec hval
    refine ⟨jsonWrite_array_fresh path schema r rs hval, ?_⟩
    rw [closedFile_eq path schema r rs]
    exact readJSONArray_writeFile schema r rs hdec hval
  · exact ⟨⟨true, ['[', '\n', lbrace, rbrace, '\n']⟩,
      ⟨true, ['[', '\n', lbrace, rbrace, '\n', lbrace, rbrace, '\n']⟩,
      rfl, rfl, rfl⟩

end Meval
